import Mathlib

/-!
# Rock::DirMap — the shared slot map of the rock cache store

A shallow embedding of `src/fs/rock/RockDirMap.cc`.  The map lives in a shared
memory region: a header (`limit`, `count`) followed by `limit` slots.  Every
operation is a short sequence of compare-and-swap steps on one slot; the
embedding gives the behaviour of one call running to completion.

An operation returns `none` when the process aborts (a failed `assert`, a
division by zero in `slotIdx`, or an access outside the slot table) and
`some` of its result and the new region contents otherwise.
-/

namespace Rock

/-- Slot states, the anonymous enum of `Rock::DirMap::Slot`. -/
inductive SlotState where
  | Empty
  | Writing
  | Usable
  | WaitingToBeFreed
  | Freeing
  deriving DecidableEq, Repr

/-- Modelled from the spec: the declaration of the slot's `key` member
(RockDirMap.h) is missing; the key is a 16-byte identifier "compared and hashed
as two 64-bit words", which is how `slotIdx` and `checkKey` read it. -/
structure CacheKey where
  k0 : Nat
  k1 : Nat
  deriving DecidableEq, Repr

/-- The fields copied by `StoreEntryBasics::set`. -/
structure StoreEntryBasics where
  timestamp : Int
  lastref : Int
  expires : Int
  lastmod : Int
  swap_file_sz : Nat
  refcount : Nat
  flags : Nat
  deriving DecidableEq, Repr

/-- Modelled from the spec: the declaration of `Slot` (RockDirMap.h) and of its
atomic counter type are missing.  `readLevel` is the atomic word the calls
increment and decrement; it is read as an `int`, so it is held here as an
integer of the 32-bit signed range, and `incr32` and `decr32` are its `++` and
`--` wherever the result can leave that range. -/
structure Slot where
  state : SlotState
  readLevel : Int
  key : CacheKey
  seBasics : StoreEntryBasics
  deriving DecidableEq, Repr

/-- Modelled from the spec: the declaration of `Shared` (RockDirMap.h) is
missing; the header holds `limit` and `count` (set by `Shared::Shared`) and is
followed by the slot table. -/
structure Shared where
  limit : Int
  count : Int
  slots : List Slot
  deriving DecidableEq, Repr

/-- What `memset(s.key, 0, sizeof(s.key))` leaves. -/
def zeroKey : CacheKey := ⟨0, 0⟩

/-- What `memset(&s.seBasics, 0, sizeof(s.seBasics))` leaves. -/
def zeroBasics : StoreEntryBasics := ⟨0, 0, 0, 0, 0, 0, 0⟩

/-- A slot of a fresh (all-zero) shared segment: state 0 is `Empty`. -/
def zeroSlot : Slot := ⟨SlotState.Empty, 0, zeroKey, zeroBasics⟩

/-- Region built by `DirMap(path, limit)`: a fresh segment of `SharedSize(limit)`
bytes with `Shared(limit)` constructed at its start (`count(0)`). -/
def Shared.create (limit : Int) : Shared :=
  { limit := limit, count := 0, slots := List.replicate limit.toNat zeroSlot }

/-- The region holds exactly `limit` slots and `limit` fits a C++ `int`. -/
def Shared.WF (m : Shared) : Prop :=
  m.slots.length = m.limit.toNat ∧ m.limit ≤ 2147483647

instance (m : Shared) : Decidable m.WF := by
  unfold Shared.WF; exact inferInstance

/-- Read of `shared->slots[i]`; `none` outside the slot table. -/
def Shared.slotAt (m : Shared) (i : Nat) : Option Slot := m.slots[i]?

/-- Write of `shared->slots[i]`. -/
def Shared.setSlot (m : Shared) (i : Nat) (s : Slot) : Shared :=
  { m with slots := m.slots.set i s }

/-- Region `m` with slot `i` replaced by `t` and the header count replaced by
`c`; used to name the region an operation leaves behind. -/
def Shared.put (m : Shared) (i : Nat) (t : Slot) (c : Int) : Shared :=
  { limit := m.limit, count := c, slots := m.slots.set i t }

/-- Atomic `state.swap_if(comp, repl)`: compare-and-swap on the slot state,
returning whether the swap happened. -/
def Slot.swap_if (s : Slot) (comp repl : SlotState) : Bool × Slot :=
  if s.state = comp then (true, { s with state := repl }) else (false, s)

/-- `Slot::setKey`: copy the caller's key into the slot. -/
def Slot.setKey (s : Slot) (aKey : CacheKey) : Slot := { s with key := aKey }

/-- `Slot::checkKey`: the source takes its two words from `&key`, the slot's own
member, and compares them with `key[0]` and `key[1]`, again the member; the
argument `aKey` is not read. -/
def Slot.checkKey (s : Slot) (_aKey : CacheKey) : Bool :=
  let k := s.key
  decide (k.k0 = s.key.k0) && decide (k.k1 = s.key.k1)

/-- Conversion of an `int` to `uint64_t`. -/
def toUint64 (x : Int) : Nat := (x % 18446744073709551616).toNat

/-- Conversion of a `uint64_t` to `int` (32-bit two's complement). -/
def toInt32 (n : Nat) : Int :=
  if n % 4294967296 < 2147483648 then ((n % 4294967296 : Nat) : Int)
  else ((n % 4294967296 : Nat) : Int) - 4294967296

/-- `++` on a 32-bit signed atomic word: one more, and from 2147483647 the
word wraps to -2147483648.  The test reads the low 32 bits of the value, so on
every value of the `int` range this is the machine increment. -/
def incr32 (x : Int) : Int :=
  if x % 4294967296 = 2147483647 then x + 1 - 4294967296 else x + 1

/-- `--` on a 32-bit signed atomic word: one less, and from -2147483648 the
word wraps to 2147483647. -/
def decr32 (x : Int) : Int :=
  if x % 4294967296 = 2147483648 then x - 1 + 4294967296 else x - 1

namespace DirMap

/-- `DirMap::entryLimit`. -/
def entryLimit (m : Shared) : Int := m.limit

/-- `DirMap::entryCount`. -/
def entryCount (m : Shared) : Int := m.count

/-- `DirMap::full`. -/
def full (m : Shared) : Bool := decide (entryCount m ≥ entryLimit m)

/-- `DirMap::valid`. -/
def valid (m : Shared) (pos : Int) : Bool :=
  decide (0 ≤ pos) && decide (pos < entryLimit m)

/-- `DirMap::AbsoluteEntryLimit`. -/
def AbsoluteEntryLimit : Int := 0xFFFFFF

/-- `DirMap::slotIdx`: `(k[0] + k[1]) % shared->limit` in `uint64_t` arithmetic,
returned as `int`; a zero divisor aborts. -/
def slotIdx (m : Shared) (key : CacheKey) : Option Int :=
  if toUint64 m.limit = 0 then none
  else some (toInt32 (((key.k0 + key.k1) % 18446744073709551616) % toUint64 m.limit))

/-- `DirMap::freeIfNeeded` on the slot at index `i`. -/
def freeIfNeeded (m : Shared) (i : Nat) : Option Shared :=
  match m.slotAt i with
  | none => none
  | some s =>
    match s.swap_if SlotState.WaitingToBeFreed SlotState.Freeing with
    | (true, s1) =>
      if s1.readLevel > 0 then
        match s1.swap_if SlotState.Freeing SlotState.WaitingToBeFreed with
        | (true, s2) => some (m.setSlot i s2)
        | (false, _) => none
      else
        let s2 : Slot := { s1 with key := zeroKey, seBasics := zeroBasics }
        match s2.swap_if SlotState.Freeing SlotState.Empty with
        | (true, s3) => some { m.setSlot i s3 with count := m.count - 1 }
        | (false, _) => none
    | (false, _) => some m

/-- `DirMap::openForReadingAt`: the result is the slot index whose `seBasics`
the returned pointer addresses, `none` for the null pointer. -/
def openForReadingAt (m : Shared) (fileno : Int) : Option (Option Nat × Shared) :=
  if valid m fileno then
    match m.slotAt fileno.toNat with
    | none => none
    | some s =>
      let s1 : Slot := { s with readLevel := incr32 s.readLevel }
      if s1.state = SlotState.Usable then
        some (some fileno.toNat, m.setSlot fileno.toNat s1)
      else
        let s2 : Slot := { s1 with readLevel := decr32 s1.readLevel }
        match freeIfNeeded (m.setSlot fileno.toNat s2) fileno.toNat with
        | none => none
        | some m1 => some (none, m1)
  else none

/-- `DirMap::free`. -/
def free (m : Shared) (fileno : Int) : Option (Bool × Shared) :=
  match openForReadingAt m fileno with
  | none => none
  | some (some _, m1) =>
    match m1.slotAt fileno.toNat with
    | none => none
    | some s =>
      let s1 := (s.swap_if SlotState.Usable SlotState.WaitingToBeFreed).2
      let s2 : Slot := { s1 with readLevel := decr32 s1.readLevel }
      match freeIfNeeded (m1.setSlot fileno.toNat s2) fileno.toNat with
      | none => none
      | some m2 => some (true, m2)
  | some (none, m1) => some (false, m1)

/-- Result of the two `open` calls: the returned pointer (as the index of the
slot whose `seBasics` it addresses, `none` for null), the caller's `fileno`
variable after the call, and the region. -/
structure Opened where
  basics : Option Nat
  fileno : Int
  shared : Shared
  deriving DecidableEq, Repr

/-- `DirMap::openForWriting`; `fileno` is the caller's variable passed by
reference. -/
def openForWriting (m : Shared) (key : CacheKey) (fileno : Int) : Option Opened :=
  match slotIdx m key with
  | none => none
  | some idx =>
    match free m idx with
    | none => none
    | some (_, m1) =>
      match m1.slotAt idx.toNat with
      | none => none
      | some s =>
        match s.swap_if SlotState.Empty SlotState.Writing with
        | (true, s1) =>
          some ⟨some idx.toNat, idx, m1.setSlot idx.toNat (s1.setKey key)⟩
        | (false, _) => some ⟨none, fileno, m1⟩

/-- `DirMap::closeForWriting`.  Its `++s.readLevel` and `++shared->count` are
exact: on every region the calls reach a `Writing` slot has `readLevel ≤ 0`
(`reachable_levels`) and `count` is at most `limit` (`reachable_count`), so
neither word can wrap here. -/
def closeForWriting (m : Shared) (fileno : Int) : Option Shared :=
  if valid m fileno then
    match m.slotAt fileno.toNat with
    | none => none
    | some s =>
      if s.state = SlotState.Writing then
        let s1 : Slot := { s with readLevel := s.readLevel + 1 }
        match s1.swap_if SlotState.Writing SlotState.Usable with
        | (true, s2) => some { m.setSlot fileno.toNat s2 with count := m.count + 1 }
        | (false, _) => none
      else none
  else none

/-- `DirMap::openForReading`. -/
def openForReading (m : Shared) (key : CacheKey) (fileno : Int) : Option Opened :=
  match slotIdx m key with
  | none => none
  | some idx =>
    match openForReadingAt m idx with
    | none => none
    | some (some p, m1) =>
      match m1.slotAt idx.toNat with
      | none => none
      | some s =>
        if s.checkKey key then some ⟨some p, idx, m1⟩
        else
          let s1 : Slot := { s with readLevel := decr32 s.readLevel }
          match freeIfNeeded (m1.setSlot idx.toNat s1) idx.toNat with
          | none => none
          | some m2 => some ⟨none, fileno, m2⟩
    | some (none, m1) => some ⟨none, fileno, m1⟩

/-- `DirMap::closeForReading`.  Its `--s.readLevel` is exact: it follows
`assert(s.readLevel > 0)`, so the word cannot wrap. -/
def closeForReading (m : Shared) (fileno : Int) : Option Shared :=
  if valid m fileno then
    match m.slotAt fileno.toNat with
    | none => none
    | some s =>
      if s.readLevel > 0 then
        freeIfNeeded (m.setSlot fileno.toNat { s with readLevel := s.readLevel - 1 })
          fileno.toNat
      else none
  else none

/-- The caller's store through the pointer returned by `openForWriting`:
`*basics = b`. -/
def storeBasics (m : Shared) (p : Nat) (b : StoreEntryBasics) : Shared :=
  match m.slotAt p with
  | none => m
  | some s => m.setSlot p { s with seBasics := b }

/-- The caller's read through the pointer returned by an `openForReading`
call. -/
def readBasics (m : Shared) (p : Nat) : Option StoreEntryBasics :=
  (m.slotAt p).map (fun s => s.seBasics)

/-- A caller committing one entry: `openForWriting`, a store of the metadata
through the returned pointer, then `closeForWriting` on the reported `fileno`.
The result is `none` when the open fails or the process aborts. -/
def writeEntry (m : Shared) (key : CacheKey) (b : StoreEntryBasics) : Option Shared :=
  match openForWriting m key 0 with
  | some ⟨some p, fileno, m1⟩ => closeForWriting (storeBasics m1 p b) fileno
  | _ => none

/-- A caller committing a list of entries one after the other with
`writeEntry`; `none` as soon as one of the writes does not succeed. -/
def writeEntries (m : Shared) : List (CacheKey × StoreEntryBasics) → Option Shared
  | [] => some m
  | e :: rest =>
    match writeEntry m e.1 e.2 with
    | none => none
    | some m1 => writeEntries m1 rest

/-! ### Concrete inputs -/

/-- Example key; with `limit = 4` it maps to slot 1. -/
def exKeyA : CacheKey := ⟨1, 0⟩

/-- Example key different from `exKeyA`; with `limit = 4` it also maps to
slot 1. -/
def exKeyE : CacheKey := ⟨5, 0⟩

/-- Example metadata. -/
def exBasics : StoreEntryBasics := ⟨100, 200, 300, 50, 4096, 1, 0⟩

/-- Example region of four slots whose slot 1 is claimed by a writer. -/
def exWriting : Shared :=
  ⟨4, 0, [zeroSlot, ⟨SlotState.Writing, 0, exKeyA, zeroBasics⟩, zeroSlot, zeroSlot]⟩

/-- Example region of four slots whose slot 1 holds a committed entry. -/
def exUsable : Shared :=
  ⟨4, 1, [zeroSlot, ⟨SlotState.Usable, 1, exKeyA, exBasics⟩, zeroSlot, zeroSlot]⟩

/-- Four example entries whose keys map to the four slots of a map with
`limit = 4`. -/
def exEntries : List (CacheKey × StoreEntryBasics) :=
  [(⟨0, 0⟩, exBasics), (⟨1, 0⟩, exBasics), (⟨2, 0⟩, exBasics), (⟨3, 0⟩, exBasics)]

/-! ### Region naming -/

/-- `strchr(begin, '/')` on the characters of a C string: the characters before
the first `'/'` and the characters after it, `none` when there is no `'/'`. -/
def splitAtSlash : List Char → Option (List Char × List Char)
  | [] => none
  | c :: cs =>
    if c = '/' then some ([], cs)
    else
      match splitAtSlash cs with
      | none => none
      | some (seg, rest) => some (c :: seg, rest)

/-- The loop of `DirMap::sharedMemoryName` from position `begin` with the
characters appended so far in `result`, for at most `fuel` iterations; `none`
when the fuel runs out. -/
def sharedMemoryNameLoop : Nat → List Char → List Char → Option (List Char)
  | 0, _, _ => none
  | fuel + 1, begin, result =>
    match splitAtSlash begin with
    | some (seg, rest) =>
      sharedMemoryNameLoop fuel rest (if seg ≠ [] then result ++ seg ++ ['.'] else result)
    | none => some (result ++ begin)

/-- `DirMap::sharedMemoryName` on the characters of `path.termedBuf()`. -/
def sharedMemoryName (path : List Char) : Option (List Char) :=
  sharedMemoryNameLoop (path.length + 1) path []

/-- Example cache-directory path. -/
def exPath : List Char := "var/cache/rock".toList

/-! ### Calls and reachable regions -/

/-- One call on the map: the seven functions of `DirMap` that work on a slot,
and the caller's store through the pointer returned by `openForWriting`. -/
inductive Op where
  | openForWriting (key : CacheKey) (fileno : Int)
  | store (p : Nat) (b : StoreEntryBasics)
  | closeForWriting (fileno : Int)
  | openForReading (key : CacheKey) (fileno : Int)
  | openForReadingAt (fileno : Int)
  | closeForReading (fileno : Int)
  | free (fileno : Int)
  | freeIfNeeded (i : Nat)
  deriving DecidableEq, Repr

/-- The region a call leaves behind, `none` when the call aborts.  A store
through the pointer of `openForWriting` is a call only while the slot is
`Writing`, the time during which the writer holds that pointer. -/
def Op.run (m : Shared) : Op → Option Shared
  | Op.openForWriting key fileno => (DirMap.openForWriting m key fileno).map (fun o => o.shared)
  | Op.store p b =>
    match m.slotAt p with
    | none => none
    | some s => if s.state = SlotState.Writing then some (storeBasics m p b) else none
  | Op.closeForWriting fileno => DirMap.closeForWriting m fileno
  | Op.openForReading key fileno => (DirMap.openForReading m key fileno).map (fun o => o.shared)
  | Op.openForReadingAt fileno => (DirMap.openForReadingAt m fileno).map (fun r => r.2)
  | Op.closeForReading fileno => DirMap.closeForReading m fileno
  | Op.free fileno => (DirMap.free m fileno).map (fun r => r.2)
  | Op.freeIfNeeded i => DirMap.freeIfNeeded m i

/-- The public operations: every call but the private `freeIfNeeded`. -/
def Op.isPublic : Op → Bool
  | Op.freeIfNeeded _ => false
  | _ => true

/-- The public operations other than `closeForReading`. -/
def Op.isNotClose : Op → Bool
  | Op.freeIfNeeded _ => false
  | Op.closeForReading _ => false
  | _ => true

/-- Regions reached from a freshly created map of limit `L` by a sequence of
calls, each allowed by `allowed` and none aborting. -/
inductive ReachableBy (allowed : Op → Bool) (L : Int) : Shared → Prop where
  | fresh : ReachableBy allowed L (Shared.create L)
  | step {m m1 : Shared} (op : Op) : ReachableBy allowed L m → allowed op = true →
      op.run m = some m1 → ReachableBy allowed L m1

/-- A slot that counts as an entry: `Usable`, or on its way from `Usable` back
to `Empty`. -/
def occupied (s : Slot) : Bool :=
  decide (s.state = SlotState.Usable) || decide (s.state = SlotState.WaitingToBeFreed) ||
    decide (s.state = SlotState.Freeing)

/-- Number of slots of the region that count as an entry. -/
def occupiedCount (m : Shared) : Nat := m.slots.countP occupied

/-- The two calls that take a read hold: `openForReadingAt` and
`openForReading`. -/
def Op.isReadOpen : Op → Bool
  | Op.openForReadingAt _ => true
  | Op.openForReading _ _ => true
  | _ => false

/-- Net effect of the call `op`, other than `closeForReading`, on the slot it
works on and on the header count: slot and count before, slot and count after.
Only a read open takes a hold, and only `openForWriting` writes a key, the key
it was called with. -/
inductive SlotStep (op : Op) : Slot → Int → Slot → Int → Prop where
  | same (s : Slot) (c : Int) : SlotStep op s c s c
  | hold (s : Slot) (c : Int) : op.isReadOpen = true → s.state = SlotState.Usable →
      SlotStep op s c { s with readLevel := incr32 s.readLevel } c
  | mark (s : Slot) (c : Int) : s.state = SlotState.Usable → 0 < s.readLevel →
      SlotStep op s c { s with state := SlotState.WaitingToBeFreed } c
  | reclaim (s : Slot) (c : Int) :
      s.state = SlotState.Usable ∨ s.state = SlotState.WaitingToBeFreed →
      s.readLevel ≤ 0 →
      SlotStep op s c ⟨SlotState.Empty, s.readLevel, zeroKey, zeroBasics⟩ (c - 1)
  | claim (s : Slot) (c : Int) (k : CacheKey) (f : Int) : op = Op.openForWriting k f →
      s.state = SlotState.Empty →
      SlotStep op s c { s with state := SlotState.Writing, key := k } c
  | reclaimClaim (s : Slot) (c : Int) (k : CacheKey) (f : Int) :
      op = Op.openForWriting k f →
      s.state = SlotState.Usable ∨ s.state = SlotState.WaitingToBeFreed →
      s.readLevel ≤ 0 →
      SlotStep op s c ⟨SlotState.Writing, s.readLevel, k, zeroBasics⟩ (c - 1)
  | commit (s : Slot) (c : Int) : s.state = SlotState.Writing →
      SlotStep op s c { s with state := SlotState.Usable, readLevel := s.readLevel + 1 }
        (c + 1)
  | store (s : Slot) (c : Int) (b : StoreEntryBasics) : s.state = SlotState.Writing →
      SlotStep op s c { s with seBasics := b } c

/-- Net effect of `closeForReading` on its slot and on the header count. -/
inductive CloseStep : Slot → Int → Slot → Int → Prop where
  | release (s : Slot) (c : Int) : 0 < s.readLevel →
      s.state ≠ SlotState.WaitingToBeFreed ∨ 1 < s.readLevel →
      CloseStep s c { s with readLevel := s.readLevel - 1 } c
  | releaseReclaim (s : Slot) (c : Int) : s.state = SlotState.WaitingToBeFreed →
      s.readLevel = 1 → CloseStep s c zeroSlot (c - 1)

/-! ### Calls with a record of their state updates

The only writes to a slot's `state` in the source are its `swap_if` calls.  The
functions below are the calls above with one addition: each `swap_if` that
happens is recorded as the pair (state before, state after). -/

/-- What one `swap_if` call adds to the record: the pair (state before, state
after) when the swap happened, nothing otherwise. -/
def swapLog (s : Slot) (r : Bool × Slot) : List (SlotState × SlotState) :=
  if r.1 then [(s.state, r.2.state)] else []

/-- `DirMap::freeIfNeeded` with the record of its state updates. -/
def freeIfNeededT (m : Shared) (i : Nat) :
    Option (Shared × List (SlotState × SlotState)) :=
  match m.slotAt i with
  | none => none
  | some s =>
    match s.swap_if SlotState.WaitingToBeFreed SlotState.Freeing with
    | (true, s1) =>
      if s1.readLevel > 0 then
        match s1.swap_if SlotState.Freeing SlotState.WaitingToBeFreed with
        | (true, s2) => some (m.setSlot i s2, swapLog s (true, s1) ++ swapLog s1 (true, s2))
        | (false, _) => none
      else
        let s2 : Slot := { s1 with key := zeroKey, seBasics := zeroBasics }
        match s2.swap_if SlotState.Freeing SlotState.Empty with
        | (true, s3) =>
          some ({ m.setSlot i s3 with count := m.count - 1 },
                swapLog s (true, s1) ++ swapLog s2 (true, s3))
        | (false, _) => none
    | (false, s1) => some (m, swapLog s (false, s1))

/-- `DirMap::openForReadingAt` with the record of its state updates. -/
def openForReadingAtT (m : Shared) (fileno : Int) :
    Option (Option Nat × Shared × List (SlotState × SlotState)) :=
  if valid m fileno then
    match m.slotAt fileno.toNat with
    | none => none
    | some s =>
      let s1 : Slot := { s with readLevel := incr32 s.readLevel }
      if s1.state = SlotState.Usable then
        some (some fileno.toNat, m.setSlot fileno.toNat s1, [])
      else
        let s2 : Slot := { s1 with readLevel := decr32 s1.readLevel }
        match freeIfNeededT (m.setSlot fileno.toNat s2) fileno.toNat with
        | none => none
        | some (m1, log) => some (none, m1, log)
  else none

/-- `DirMap::free` with the record of its state updates. -/
def freeT (m : Shared) (fileno : Int) :
    Option (Bool × Shared × List (SlotState × SlotState)) :=
  match openForReadingAtT m fileno with
  | none => none
  | some (some _, m1, log) =>
    match m1.slotAt fileno.toNat with
    | none => none
    | some s =>
      let r := s.swap_if SlotState.Usable SlotState.WaitingToBeFreed
      let s2 : Slot := { r.2 with readLevel := decr32 r.2.readLevel }
      match freeIfNeededT (m1.setSlot fileno.toNat s2) fileno.toNat with
      | none => none
      | some (m2, log2) => some (true, m2, log ++ swapLog s r ++ log2)
  | some (none, m1, log) => some (false, m1, log)

/-- `DirMap::openForWriting` with the record of its state updates. -/
def openForWritingT (m : Shared) (key : CacheKey) (fileno : Int) :
    Option (Opened × List (SlotState × SlotState)) :=
  match slotIdx m key with
  | none => none
  | some idx =>
    match freeT m idx with
    | none => none
    | some (_, m1, log) =>
      match m1.slotAt idx.toNat with
      | none => none
      | some s =>
        match s.swap_if SlotState.Empty SlotState.Writing with
        | (true, s1) =>
          some (⟨some idx.toNat, idx, m1.setSlot idx.toNat (s1.setKey key)⟩,
                log ++ swapLog s (true, s1))
        | (false, s1) => some (⟨none, fileno, m1⟩, log ++ swapLog s (false, s1))

/-- `DirMap::closeForWriting` with the record of its state updates. -/
def closeForWritingT (m : Shared) (fileno : Int) :
    Option (Shared × List (SlotState × SlotState)) :=
  if valid m fileno then
    match m.slotAt fileno.toNat with
    | none => none
    | some s =>
      if s.state = SlotState.Writing then
        let s1 : Slot := { s with readLevel := s.readLevel + 1 }
        match s1.swap_if SlotState.Writing SlotState.Usable with
        | (true, s2) =>
          some ({ m.setSlot fileno.toNat s2 with count := m.count + 1 },
                swapLog s1 (true, s2))
        | (false, _) => none
      else none
  else none

/-- `DirMap::openForReading` with the record of its state updates. -/
def openForReadingT (m : Shared) (key : CacheKey) (fileno : Int) :
    Option (Opened × List (SlotState × SlotState)) :=
  match slotIdx m key with
  | none => none
  | some idx =>
    match openForReadingAtT m idx with
    | none => none
    | some (some p, m1, log) =>
      match m1.slotAt idx.toNat with
      | none => none
      | some s =>
        if s.checkKey key then some (⟨some p, idx, m1⟩, log)
        else
          let s1 : Slot := { s with readLevel := decr32 s.readLevel }
          match freeIfNeededT (m1.setSlot idx.toNat s1) idx.toNat with
          | none => none
          | some (m2, log2) => some (⟨none, fileno, m2⟩, log ++ log2)
    | some (none, m1, log) => some (⟨none, fileno, m1⟩, log)

/-- `DirMap::closeForReading` with the record of its state updates. -/
def closeForReadingT (m : Shared) (fileno : Int) :
    Option (Shared × List (SlotState × SlotState)) :=
  if valid m fileno then
    match m.slotAt fileno.toNat with
    | none => none
    | some s =>
      if s.readLevel > 0 then
        freeIfNeededT (m.setSlot fileno.toNat { s with readLevel := s.readLevel - 1 })
          fileno.toNat
      else none
  else none

/-- A call with the record of the state updates it performs; the store through
the writer's pointer performs none. -/
def Op.runT (m : Shared) : Op → Option (Shared × List (SlotState × SlotState))
  | Op.openForWriting key fileno =>
    (openForWritingT m key fileno).map (fun r => (r.1.shared, r.2))
  | Op.store p b => (Op.run m (Op.store p b)).map (fun m1 => (m1, []))
  | Op.closeForWriting fileno => closeForWritingT m fileno
  | Op.openForReading key fileno =>
    (openForReadingT m key fileno).map (fun r => (r.1.shared, r.2))
  | Op.openForReadingAt fileno => (openForReadingAtT m fileno).map (fun r => r.2)
  | Op.closeForReading fileno => closeForReadingT m fileno
  | Op.free fileno => (freeT m fileno).map (fun r => r.2)
  | Op.freeIfNeeded i => freeIfNeededT m i

/-- The index of the slot a call works on. -/
def Op.slot (m : Shared) : Op → Option Nat
  | Op.openForWriting key _ => (slotIdx m key).map Int.toNat
  | Op.store p _ => some p
  | Op.closeForWriting fileno => some fileno.toNat
  | Op.openForReading key _ => (slotIdx m key).map Int.toNat
  | Op.openForReadingAt fileno => some fileno.toNat
  | Op.closeForReading fileno => some fileno.toNat
  | Op.free fileno => some fileno.toNat
  | Op.freeIfNeeded i => some i

/-- The transitions of the slot state machine: `Empty → Writing`,
`Writing → Usable`, `Usable → WaitingToBeFreed`, `WaitingToBeFreed → Freeing`,
`Freeing → WaitingToBeFreed` and `Freeing → Empty`. -/
def tabulated : SlotState × SlotState → Bool
  | (SlotState.Empty, SlotState.Writing) => true
  | (SlotState.Writing, SlotState.Usable) => true
  | (SlotState.Usable, SlotState.WaitingToBeFreed) => true
  | (SlotState.WaitingToBeFreed, SlotState.Freeing) => true
  | (SlotState.Freeing, SlotState.WaitingToBeFreed) => true
  | (SlotState.Freeing, SlotState.Empty) => true
  | _ => false

/-- The state a chain of updates leads to from state `st`: each update must
start where the one before it ended; `none` when the chain is broken. -/
def chainFrom (st : SlotState) : List (SlotState × SlotState) → Option SlotState
  | [] => some st
  | (a, b) :: rest => if a = st then chainFrom b rest else none

/-- What a record of state updates must satisfy for a slot that went from state
`st` to state `st1`: every update is a tabulated transition, the updates form
a chain from `st` to `st1`, and the slot went neither from `Writing` to
`Empty` nor from `Empty` to `Usable`. -/
def TraceOK (st st1 : SlotState) (log : List (SlotState × SlotState)) : Prop :=
  (∀ t ∈ log, tabulated t = true) ∧ chainFrom st log = some st1 ∧
  (st = SlotState.Writing → st1 ≠ SlotState.Empty) ∧
  (st = SlotState.Empty → st1 ≠ SlotState.Usable)

/-! ### Calls that keep the counter in range -/

/-- The slot at index `i` is `Usable` and its `readLevel` is 2147483647, the
largest value of the word. -/
def holdsFull (m : Shared) (i : Nat) : Bool :=
  match m.slotAt i with
  | some s => decide (s.state = SlotState.Usable) && decide (s.readLevel = 2147483647)
  | none => false

/-- A read open that wraps the counter: `openForReadingAt` or `openForReading`
made on a `Usable` slot whose `readLevel` is 2147483647. -/
def Op.wraps (m : Shared) (op : Op) : Bool :=
  op.isReadOpen &&
    (match op.slot m with
     | some i => holdsFull m i
     | none => false)

/-- Regions reached from a freshly created map of limit `L` by a sequence of
calls, none aborting, each passing `guard` in the region it is made in. -/
inductive ReachableWhile (guard : Shared → Op → Bool) (L : Int) : Shared → Prop where
  | fresh : ReachableWhile guard L (Shared.create L)
  | step {m m1 : Shared} (op : Op) : ReachableWhile guard L m → guard m op = true →
      op.run m = some m1 → ReachableWhile guard L m1

/-- A public operation that does not wrap the counter. -/
def publicNoWrap (m : Shared) (op : Op) : Bool := op.isPublic && !op.wraps m

/-- A public operation other than `closeForReading` that does not wrap the
counter. -/
def notCloseNoWrap (m : Shared) (op : Op) : Bool := op.isNotClose && !op.wraps m

/-- The public operations without `openForWriting` of the all-zero key. -/
def Op.isPublicNonzeroKey : Op → Bool
  | Op.freeIfNeeded _ => false
  | Op.openForWriting key _ => decide (key ≠ zeroKey)
  | _ => true

/-- The region `exUsable` after 2147483647 further read opens of slot 1: the
counter has wrapped to -2147483648. -/
def exWrapped : Shared :=
  ⟨4, 1, [zeroSlot, ⟨SlotState.Usable, -2147483648, exKeyA, exBasics⟩, zeroSlot, zeroSlot]⟩

/-- The region `exUsable` after `free(1)` and the `closeForReading(1)` that
releases the hold taken at commit: slot 1 has been reclaimed. -/
def exReclaimed : Shared := ⟨4, 0, [zeroSlot, zeroSlot, zeroSlot, zeroSlot]⟩

/-- Example region of four slots whose slot 1 is marked for removal and has no
holder. -/
def exWaiting : Shared :=
  ⟨4, 1, [zeroSlot, ⟨SlotState.WaitingToBeFreed, 0, exKeyA, exBasics⟩, zeroSlot, zeroSlot]⟩

end DirMap

/-! ## The slot table -/

theorem Shared.lt_length_of_slotAt {m : Shared} {i : Nat} {s : Slot}
    (h : m.slotAt i = some s) : i < m.slots.length := by
  by_contra hc
  unfold Shared.slotAt at h
  rw [List.getElem?_eq_none (by omega)] at h
  cases h

theorem Shared.slotAt_put_self {m : Shared} {i : Nat} {s : Slot} (t : Slot) (c : Int)
    (h : m.slotAt i = some s) : (m.put i t c).slotAt i = some t := by
  have hi := Shared.lt_length_of_slotAt h
  simp [Shared.slotAt, Shared.put, List.getElem?_set, hi]

theorem Shared.slotAt_put_ne {m : Shared} {i j : Nat} (t : Slot) (c : Int) (h : j ≠ i) :
    (m.put i t c).slotAt j = m.slotAt j := by
  simp [Shared.slotAt, Shared.put, List.getElem?_set, Ne.symm h]

theorem Shared.put_self {m : Shared} {i : Nat} {s : Slot}
    (h : m.slotAt i = some s) : m.put i s m.count = m := by
  have hi := Shared.lt_length_of_slotAt h
  unfold Shared.slotAt at h
  cases m with
  | mk l c sl =>
    simp only [Shared.put, Shared.mk.injEq, true_and] at *
    apply List.ext_getElem?
    intro j
    by_cases hj : i = j
    · subst hj
      simp [List.getElem?_set, hi, h]
    · simp [List.getElem?_set, hj]

@[simp] theorem Shared.put_put (m : Shared) (i : Nat) (s t : Slot) (c d : Int) :
    (m.put i s c).put i t d = m.put i t d := by
  simp [Shared.put, List.set_set]

@[simp] theorem Shared.put_limit (m : Shared) (i : Nat) (s : Slot) (c : Int) :
    (m.put i s c).limit = m.limit := rfl

@[simp] theorem Shared.put_count (m : Shared) (i : Nat) (s : Slot) (c : Int) :
    (m.put i s c).count = c := rfl

@[simp] theorem Shared.put_length (m : Shared) (i : Nat) (s : Slot) (c : Int) :
    (m.put i s c).slots.length = m.slots.length := by
  simp [Shared.put]

theorem Shared.setSlot_eq_put (m : Shared) (i : Nat) (s : Slot) :
    m.setSlot i s = m.put i s m.count := rfl

theorem Shared.put_WF {m : Shared} (i : Nat) (s : Slot) (c : Int) (h : m.WF) :
    (m.put i s c).WF := by
  unfold Shared.WF at *
  simpa using h

theorem decr32_incr32 (x : Int) : decr32 (incr32 x) = x := by
  unfold decr32 incr32
  split_ifs <;> omega

theorem incr32_of_ne {x : Int} (h : x % 4294967296 ≠ 2147483647) : incr32 x = x + 1 := by
  unfold incr32
  rw [if_neg h]

theorem incr32_of_lt {x : Int} (h0 : -2147483648 ≤ x) (h1 : x < 2147483647) :
    incr32 x = x + 1 :=
  incr32_of_ne (by omega)

theorem incr32_max : incr32 2147483647 = -2147483648 := by decide

theorem incr32_range {x : Int} (h0 : -2147483648 ≤ x) (h1 : x ≤ 2147483647) :
    -2147483648 ≤ incr32 x ∧ incr32 x ≤ 2147483647 := by
  unfold incr32
  split_ifs <;> omega

theorem Slot.incr_decr (s : Slot) :
    ({ state := s.state, readLevel := decr32 (incr32 s.readLevel), key := s.key,
       seBasics := s.seBasics } : Slot) = s := by
  cases s; simp [decr32_incr32]

/-! ## One call on one slot -/

namespace DirMap

@[simp] theorem valid_put (m : Shared) (i : Nat) (s : Slot) (c pos : Int) :
    valid (m.put i s c) pos = valid m pos := rfl

@[simp] theorem slotIdx_put (m : Shared) (i : Nat) (s : Slot) (c : Int) (key : CacheKey) :
    slotIdx (m.put i s c) key = slotIdx m key := rfl

theorem freeIfNeeded_of_ne {m : Shared} {i : Nat} {s : Slot}
    (h : m.slotAt i = some s) (hs : s.state ≠ SlotState.WaitingToBeFreed) :
    freeIfNeeded m i = some m := by
  simp [freeIfNeeded, h, Slot.swap_if, hs]

theorem freeIfNeeded_of_held {m : Shared} {i : Nat} {s : Slot}
    (h : m.slotAt i = some s) (hr : 0 < s.readLevel) :
    freeIfNeeded m i = some m := by
  by_cases hs : s.state = SlotState.WaitingToBeFreed
  · have e : ({ state := SlotState.WaitingToBeFreed, readLevel := s.readLevel,
                key := s.key, seBasics := s.seBasics } : Slot) = s := by
      cases s; simp_all
    simp [freeIfNeeded, h, Slot.swap_if, hs, hr, e, Shared.setSlot_eq_put,
      Shared.put_self h]
  · exact freeIfNeeded_of_ne h hs

theorem freeIfNeeded_of_unheld {m : Shared} {i : Nat} {s : Slot}
    (h : m.slotAt i = some s) (hs : s.state = SlotState.WaitingToBeFreed)
    (hr : s.readLevel ≤ 0) :
    freeIfNeeded m i =
      some (m.put i ⟨SlotState.Empty, s.readLevel, zeroKey, zeroBasics⟩ (m.count - 1)) := by
  have hr' : ¬ 0 < s.readLevel := by omega
  simp [freeIfNeeded, h, Slot.swap_if, hs, hr', Shared.setSlot, Shared.put]

theorem openForReadingAt_of_usable {m : Shared} {fileno : Int} {s : Slot}
    (hv : valid m fileno = true) (h : m.slotAt fileno.toNat = some s)
    (hs : s.state = SlotState.Usable) :
    openForReadingAt m fileno =
      some (some fileno.toNat,
            m.put fileno.toNat { s with readLevel := incr32 s.readLevel } m.count) := by
  simp [openForReadingAt, hv, h, hs, Shared.setSlot_eq_put]

theorem openForReadingAt_of_not_usable {m : Shared} {fileno : Int} {s : Slot}
    (hv : valid m fileno = true) (h : m.slotAt fileno.toNat = some s)
    (hs : s.state ≠ SlotState.Usable) :
    openForReadingAt m fileno =
      (freeIfNeeded m fileno.toNat).map (fun m1 => (none, m1)) := by
  simp only [openForReadingAt, hv, h, if_true, hs, if_false, Slot.incr_decr,
    Shared.setSlot_eq_put, Shared.put_self h]
  cases freeIfNeeded m fileno.toNat <;> rfl

theorem free_of_not_usable {m : Shared} {fileno : Int} {s : Slot}
    (hv : valid m fileno = true) (h : m.slotAt fileno.toNat = some s)
    (hs : s.state ≠ SlotState.Usable) :
    free m fileno = (freeIfNeeded m fileno.toNat).map (fun m1 => (false, m1)) := by
  simp only [free, openForReadingAt_of_not_usable hv h hs]
  cases freeIfNeeded m fileno.toNat <;> rfl

theorem free_of_usable_held {m : Shared} {fileno : Int} {s : Slot}
    (hv : valid m fileno = true) (h : m.slotAt fileno.toNat = some s)
    (hs : s.state = SlotState.Usable) (hr : 0 < s.readLevel) :
    free m fileno =
      some (true,
            m.put fileno.toNat { s with state := SlotState.WaitingToBeFreed } m.count) := by
  have h1 := Shared.slotAt_put_self
    ({ s with state := SlotState.WaitingToBeFreed } : Slot) m.count h
  simp only [free, openForReadingAt_of_usable hv h hs,
    Shared.slotAt_put_self _ _ h, Slot.swap_if, hs, if_true, Shared.setSlot_eq_put,
    Shared.put_put, Shared.put_count, decr32_incr32]
  rw [freeIfNeeded_of_held h1 hr]

theorem free_of_usable_unheld {m : Shared} {fileno : Int} {s : Slot}
    (hv : valid m fileno = true) (h : m.slotAt fileno.toNat = some s)
    (hs : s.state = SlotState.Usable) (hr : s.readLevel ≤ 0) :
    free m fileno =
      some (true,
            m.put fileno.toNat ⟨SlotState.Empty, s.readLevel, zeroKey, zeroBasics⟩
              (m.count - 1)) := by
  have h1 := Shared.slotAt_put_self
    ({ s with state := SlotState.WaitingToBeFreed } : Slot) m.count h
  simp only [free, openForReadingAt_of_usable hv h hs,
    Shared.slotAt_put_self _ _ h, Slot.swap_if, hs, if_true, Shared.setSlot_eq_put,
    Shared.put_put, Shared.put_count, decr32_incr32]
  rw [freeIfNeeded_of_unheld h1 rfl hr]
  simp

theorem toUint64_of_pos {x : Int} (h0 : 0 ≤ x) (h1 : x ≤ 2147483647) :
    toUint64 x = x.toNat := by
  unfold toUint64
  rw [Int.emod_eq_of_lt h0 (by omega)]

theorem toInt32_of_small {n : Nat} (h : n < 2147483648) : toInt32 n = (n : Int) := by
  unfold toInt32
  have e : n % 4294967296 = n := Nat.mod_eq_of_lt (by omega)
  rw [e, if_pos h]

theorem slotIdx_of_limit {m : Shared} (key : CacheKey) (h1 : 1 ≤ m.limit)
    (h2 : m.limit ≤ 2147483647) :
    slotIdx m key =
      some (((key.k0 + key.k1) % 18446744073709551616 % m.limit.toNat : Nat) : Int) := by
  unfold slotIdx
  rw [toUint64_of_pos (by omega) h2]
  have hp : 0 < m.limit.toNat := by omega
  have hlt : (key.k0 + key.k1) % 18446744073709551616 % m.limit.toNat < m.limit.toNat :=
    Nat.mod_lt _ hp
  rw [if_neg (by omega), toInt32_of_small (by omega)]

theorem slotIdx_valid {m : Shared} {key : CacheKey} {idx : Int} (h1 : 1 ≤ m.limit)
    (h2 : m.limit ≤ 2147483647) (h : slotIdx m key = some idx) : valid m idx = true := by
  rw [slotIdx_of_limit key h1 h2] at h
  have hp : 0 < m.limit.toNat := by omega
  have hlt : (key.k0 + key.k1) % 18446744073709551616 % m.limit.toNat < m.limit.toNat :=
    Nat.mod_lt _ hp
  injection h with h
  subst h
  simp only [valid, entryLimit, Bool.and_eq_true, decide_eq_true_eq]
  omega

theorem slotIdx_congr {m m1 : Shared} (key : CacheKey) (hl : m1.limit = m.limit) :
    slotIdx m1 key = slotIdx m key := by
  unfold slotIdx
  rw [hl]

theorem valid_congr {m m1 : Shared} (pos : Int) (hl : m1.limit = m.limit) :
    valid m1 pos = valid m pos := by
  unfold valid entryLimit
  rw [hl]

theorem slotAt_of_valid {m : Shared} {pos : Int} (hw : m.WF) (hv : valid m pos = true) :
    ∃ s, m.slotAt pos.toNat = some s := by
  simp only [valid, entryLimit, Bool.and_eq_true, decide_eq_true_eq] at hv
  have hlt : pos.toNat < m.slots.length := by rw [hw.1]; omega
  exact ⟨m.slots[pos.toNat], by simp [Shared.slotAt, List.getElem?_eq_getElem hlt]⟩

theorem openForWriting_of_empty {m : Shared} {key : CacheKey} {idx : Int} {s : Slot}
    (fileno : Int) (hi : slotIdx m key = some idx) (hv : valid m idx = true)
    (h : m.slotAt idx.toNat = some s) (hs : s.state = SlotState.Empty) :
    openForWriting m key fileno =
      some ⟨some idx.toNat, idx,
            m.put idx.toNat { s with state := SlotState.Writing, key := key } m.count⟩ := by
  have hf : free m idx = some (false, m) := by
    rw [free_of_not_usable hv h (by simp [hs]), freeIfNeeded_of_ne h (by simp [hs])]
    rfl
  simp [openForWriting, hi, hf, h, Slot.swap_if, hs, Slot.setKey, Shared.setSlot_eq_put]

theorem openForWriting_of_busy {m : Shared} {key : CacheKey} {idx : Int} {s : Slot}
    (fileno : Int) (hi : slotIdx m key = some idx) (hv : valid m idx = true)
    (h : m.slotAt idx.toNat = some s)
    (hs : s.state = SlotState.Writing ∨ s.state = SlotState.Freeing) :
    openForWriting m key fileno = some ⟨none, fileno, m⟩ := by
  have hf : free m idx = some (false, m) := by
    rw [free_of_not_usable hv h (by rcases hs with hs | hs <;> simp [hs]),
      freeIfNeeded_of_ne h (by rcases hs with hs | hs <;> simp [hs])]
    rfl
  rcases hs with hs | hs <;> simp [openForWriting, hi, hf, h, Slot.swap_if, hs]

theorem openForWriting_of_usable_held {m : Shared} {key : CacheKey} {idx : Int} {s : Slot}
    (fileno : Int) (hi : slotIdx m key = some idx) (hv : valid m idx = true)
    (h : m.slotAt idx.toNat = some s) (hs : s.state = SlotState.Usable)
    (hr : 0 < s.readLevel) :
    openForWriting m key fileno =
      some ⟨none, fileno,
            m.put idx.toNat { s with state := SlotState.WaitingToBeFreed } m.count⟩ := by
  simp [openForWriting, hi, free_of_usable_held hv h hs hr,
    Shared.slotAt_put_self _ _ h, Slot.swap_if]

theorem closeForWriting_of_writing {m : Shared} {fileno : Int} {s : Slot}
    (hv : valid m fileno = true) (h : m.slotAt fileno.toNat = some s)
    (hs : s.state = SlotState.Writing) :
    closeForWriting m fileno =
      some (m.put fileno.toNat
              { s with state := SlotState.Usable, readLevel := s.readLevel + 1 }
              (m.count + 1)) := by
  simp [closeForWriting, hv, h, hs, Slot.swap_if, Shared.setSlot, Shared.put]

theorem closeForReading_of_held {m : Shared} {fileno : Int} {s : Slot}
    (hv : valid m fileno = true) (h : m.slotAt fileno.toNat = some s)
    (hr : 0 < s.readLevel) :
    closeForReading m fileno =
      freeIfNeeded (m.put fileno.toNat { s with readLevel := s.readLevel - 1 } m.count)
        fileno.toNat := by
  simp [closeForReading, hv, h, hr, Shared.setSlot_eq_put]

theorem closeForReading_keep {m : Shared} {fileno : Int} {s : Slot}
    (hv : valid m fileno = true) (h : m.slotAt fileno.toNat = some s)
    (hr : 0 < s.readLevel)
    (hk : s.state ≠ SlotState.WaitingToBeFreed ∨ 1 < s.readLevel) :
    closeForReading m fileno =
      some (m.put fileno.toNat { s with readLevel := s.readLevel - 1 } m.count) := by
  have h1 := Shared.slotAt_put_self
    ({ s with readLevel := s.readLevel - 1 } : Slot) m.count h
  rw [closeForReading_of_held hv h hr]
  rcases hk with hk | hk
  · exact freeIfNeeded_of_ne h1 hk
  · exact freeIfNeeded_of_held h1 (by show 0 < s.readLevel - 1; omega)

theorem closeForReading_reclaim {m : Shared} {fileno : Int} {s : Slot}
    (hv : valid m fileno = true) (h : m.slotAt fileno.toNat = some s)
    (hs : s.state = SlotState.WaitingToBeFreed) (hr : s.readLevel = 1) :
    closeForReading m fileno = some (m.put fileno.toNat zeroSlot (m.count - 1)) := by
  have h1 := Shared.slotAt_put_self
    ({ s with readLevel := s.readLevel - 1 } : Slot) m.count h
  rw [closeForReading_of_held hv h (by omega), freeIfNeeded_of_unheld h1 hs
    (by show s.readLevel - 1 ≤ 0; omega)]
  simp [hr, zeroSlot]

theorem openForReading_of_usable {m : Shared} {key : CacheKey} {idx : Int} {s : Slot}
    (fileno : Int) (hi : slotIdx m key = some idx) (hv : valid m idx = true)
    (h : m.slotAt idx.toNat = some s) (hs : s.state = SlotState.Usable) :
    openForReading m key fileno =
      some ⟨some idx.toNat, idx,
            m.put idx.toNat { s with readLevel := incr32 s.readLevel } m.count⟩ := by
  simp [openForReading, hi, openForReadingAt_of_usable hv h hs,
    Shared.slotAt_put_self _ _ h, Slot.checkKey]

theorem openForReading_of_not_usable {m : Shared} {key : CacheKey} {idx : Int} {s : Slot}
    (fileno : Int) (hi : slotIdx m key = some idx) (hv : valid m idx = true)
    (h : m.slotAt idx.toNat = some s) (hs : s.state ≠ SlotState.Usable) :
    openForReading m key fileno =
      (freeIfNeeded m idx.toNat).map (fun m1 => ⟨none, fileno, m1⟩) := by
  simp only [openForReading, hi, openForReadingAt_of_not_usable hv h hs]
  cases freeIfNeeded m idx.toNat <;> rfl

theorem storeBasics_put {m : Shared} {i : Nat} {s : Slot} (t : Slot) (c : Int)
    (b : StoreEntryBasics) (h : m.slotAt i = some s) :
    storeBasics (m.put i t c) i b = m.put i { t with seBasics := b } c := by
  simp [storeBasics, Shared.slotAt_put_self t c h, Shared.setSlot_eq_put]

theorem writeEntry_of_empty {m : Shared} {key : CacheKey} {idx : Int} {s : Slot}
    (b : StoreEntryBasics) (hi : slotIdx m key = some idx) (hv : valid m idx = true)
    (h : m.slotAt idx.toNat = some s) (hs : s.state = SlotState.Empty) :
    writeEntry m key b =
      some (m.put idx.toNat ⟨SlotState.Usable, s.readLevel + 1, key, b⟩ (m.count + 1)) := by
  have h2 := Shared.slotAt_put_self
    (⟨SlotState.Writing, s.readLevel, key, b⟩ : Slot) m.count h
  simp only [writeEntry, openForWriting_of_empty 0 hi hv h hs, storeBasics_put _ _ _ h]
  rw [closeForWriting_of_writing (by simpa using hv) h2 rfl]
  simp

theorem create_WF {L : Int} (h2 : L ≤ 2147483647) : (Shared.create L).WF := by
  simp [Shared.WF, Shared.create, h2]

theorem create_slotAt {L pos : Int} (hv : valid (Shared.create L) pos = true) :
    (Shared.create L).slotAt pos.toNat = some zeroSlot := by
  simp only [valid, entryLimit, Shared.create, Bool.and_eq_true, decide_eq_true_eq] at hv
  have hlt : pos.toNat < L.toNat := by omega
  simp [Shared.slotAt, Shared.create, List.getElem?_replicate, hlt]


/-! ## Calls that cannot abort -/

theorem freeIfNeeded_total {m : Shared} {i : Nat} {s : Slot} (h : m.slotAt i = some s) :
    ∃ m1, freeIfNeeded m i = some m1 ∧ m1.limit = m.limit ∧
      m1.slots.length = m.slots.length := by
  by_cases hs : s.state = SlotState.WaitingToBeFreed
  · by_cases hr : 0 < s.readLevel
    · exact ⟨m, freeIfNeeded_of_held h hr, rfl, rfl⟩
    · exact ⟨_, freeIfNeeded_of_unheld h hs (by omega), rfl, by simp⟩
  · exact ⟨m, freeIfNeeded_of_ne h hs, rfl, rfl⟩

theorem free_total {m : Shared} {fileno : Int} (hw : m.WF) (hv : valid m fileno = true) :
    ∃ b m1, free m fileno = some (b, m1) ∧ m1.limit = m.limit ∧
      m1.slots.length = m.slots.length := by
  obtain ⟨s, h⟩ := slotAt_of_valid hw hv
  by_cases hs : s.state = SlotState.Usable
  · by_cases hr : 0 < s.readLevel
    · exact ⟨true, _, free_of_usable_held hv h hs hr, rfl, by simp⟩
    · exact ⟨true, _, free_of_usable_unheld hv h hs (by omega), rfl, by simp⟩
  · obtain ⟨m1, e, hl, hn⟩ := freeIfNeeded_total h
    exact ⟨false, m1, by rw [free_of_not_usable hv h hs, e]; rfl, hl, hn⟩

theorem openForReadingAt_total {m : Shared} {fileno : Int} (hw : m.WF)
    (hv : valid m fileno = true) :
    ∃ p m1, openForReadingAt m fileno = some (p, m1) ∧ m1.limit = m.limit ∧
      m1.slots.length = m.slots.length := by
  obtain ⟨s, h⟩ := slotAt_of_valid hw hv
  by_cases hs : s.state = SlotState.Usable
  · exact ⟨_, _, openForReadingAt_of_usable hv h hs, rfl, by simp⟩
  · obtain ⟨m1, e, hl, hn⟩ := freeIfNeeded_total h
    exact ⟨none, m1, by rw [openForReadingAt_of_not_usable hv h hs, e]; rfl, hl, hn⟩

theorem WF_of_same {m m1 : Shared} (hw : m.WF) (hl : m1.limit = m.limit)
    (hn : m1.slots.length = m.slots.length) : m1.WF := by
  unfold Shared.WF at *
  rw [hl, hn]
  exact hw

theorem openForWriting_total {m : Shared} {key : CacheKey} {idx : Int} (fileno : Int)
    (hw : m.WF) (hi : slotIdx m key = some idx) (hv : valid m idx = true) :
    (openForWriting m key fileno).isSome = true := by
  obtain ⟨b, m1, e, hl, hn⟩ := free_total hw hv
  have hv1 : valid m1 idx = true := by rw [valid_congr idx hl]; exact hv
  obtain ⟨s, h⟩ := slotAt_of_valid (WF_of_same hw hl hn) hv1
  by_cases hs : s.state = SlotState.Empty <;>
    simp [openForWriting, hi, e, h, Slot.swap_if, hs]

theorem openForReading_total {m : Shared} {key : CacheKey} {idx : Int} (fileno : Int)
    (hw : m.WF) (hi : slotIdx m key = some idx) (hv : valid m idx = true) :
    (openForReading m key fileno).isSome = true := by
  obtain ⟨p, m1, e, hl, hn⟩ := openForReadingAt_total hw hv
  have hv1 : valid m1 idx = true := by rw [valid_congr idx hl]; exact hv
  obtain ⟨s, h⟩ := slotAt_of_valid (WF_of_same hw hl hn) hv1
  cases p with
  | none => simp [openForReading, hi, e]
  | some p => simp [openForReading, hi, e, h, Slot.checkKey]

/-! ## Claims -/

/-- C1. Round trip: on a region with `limit ≥ 1`, for a key whose slot is
`Empty`, `openForWriting` succeeds and reports the key's index as `fileno`;
after the metadata `b` is stored through the returned pointer and the slot is
closed with `closeForWriting`, `openForReading` of the same key returns a
non-null pointer, reports the same `fileno`, and the metadata read through the
pointer is `b`. -/
theorem C1_write_read_round_trip (m : Shared) (key : CacheKey) (b : StoreEntryBasics)
    (idx f0 f1 : Int) (s : Slot) (hw : m.WF) (h1 : 1 ≤ m.limit)
    (hi : slotIdx m key = some idx) (h : m.slotAt idx.toNat = some s)
    (hs : s.state = SlotState.Empty) :
    ∃ m1 m2 m3, openForWriting m key f0 = some ⟨some idx.toNat, idx, m1⟩ ∧
      closeForWriting (storeBasics m1 idx.toNat b) idx = some m2 ∧
      openForReading m2 key f1 = some ⟨some idx.toNat, idx, m3⟩ ∧
      readBasics m3 idx.toNat = some b := by
  have hv := slotIdx_valid h1 hw.2 hi
  have h2 := Shared.slotAt_put_self
    (⟨SlotState.Writing, s.readLevel, key, b⟩ : Slot) m.count h
  have h3 := Shared.slotAt_put_self
    (⟨SlotState.Usable, s.readLevel + 1, key, b⟩ : Slot) (m.count + 1) h
  have e2 : closeForWriting
      (storeBasics
        (m.put idx.toNat { s with state := SlotState.Writing, key := key } m.count)
        idx.toNat b) idx
      = some (m.put idx.toNat ⟨SlotState.Usable, s.readLevel + 1, key, b⟩ (m.count + 1)) := by
    rw [storeBasics_put _ _ _ h, closeForWriting_of_writing (by simpa using hv) h2 rfl]
    simp
  have e3 : openForReading
      (m.put idx.toNat ⟨SlotState.Usable, s.readLevel + 1, key, b⟩ (m.count + 1)) key f1
      = some ⟨some idx.toNat, idx,
          m.put idx.toNat ⟨SlotState.Usable, incr32 (s.readLevel + 1), key, b⟩
            (m.count + 1)⟩ := by
    rw [openForReading_of_usable f1 (by simpa using hi) (by simpa using hv) h3 rfl]
    simp
  refine ⟨_, _, _, openForWriting_of_empty f0 hi hv h hs, e2, e3, ?_⟩
  simp only [readBasics]
  rw [Shared.slotAt_put_self _ _ h]
  rfl

/-- C5. Exclusive write claim: when the slot a key maps to is in state `Writing`,
`openForWriting` on that key returns the null pointer, leaves the caller's
`fileno` as it was and leaves the whole region (every slot and the header)
unchanged. -/
theorem C5_openForWriting_while_writing (m : Shared) (key : CacheKey) (idx fileno : Int)
    (s : Slot) (hw : m.WF) (hi : slotIdx m key = some idx)
    (h : m.slotAt idx.toNat = some s) (hs : s.state = SlotState.Writing) :
    openForWriting m key fileno = some ⟨none, fileno, m⟩ := by
  have hlen := Shared.lt_length_of_slotAt h
  have h1 : 1 ≤ m.limit := by
    have := hw.1
    omega
  exact openForWriting_of_busy fileno hi (slotIdx_valid h1 hw.2 hi) h (Or.inl hs)

/-- C6. Result of `free` on a valid slot id: the call returns, and it returns
true exactly when the slot was `Usable` on entry; after a true result the slot
is `WaitingToBeFreed` or `Empty`; on an `Empty`, `Writing` or
`WaitingToBeFreed` slot the result is false. -/
theorem C6_free_result (m : Shared) (id : Int) (hw : m.WF) (hv : valid m id = true) :
    ∃ s b m1, m.slotAt id.toNat = some s ∧ free m id = some (b, m1) ∧
      (b = true ↔ s.state = SlotState.Usable) ∧
      (b = true → ∃ t, m1.slotAt id.toNat = some t ∧
        (t.state = SlotState.WaitingToBeFreed ∨ t.state = SlotState.Empty)) ∧
      (s.state = SlotState.Empty ∨ s.state = SlotState.Writing ∨
        s.state = SlotState.WaitingToBeFreed → b = false) := by
  obtain ⟨s, h⟩ := slotAt_of_valid hw hv
  refine ⟨s, ?_⟩
  by_cases hs : s.state = SlotState.Usable
  · by_cases hr : 0 < s.readLevel
    · refine ⟨true, _, h, free_of_usable_held hv h hs hr, by simp [hs], ?_, by simp [hs]⟩
      intro _
      exact ⟨_, Shared.slotAt_put_self _ _ h, Or.inl rfl⟩
    · refine ⟨true, _, h, free_of_usable_unheld hv h hs (by omega), by simp [hs], ?_,
        by simp [hs]⟩
      intro _
      exact ⟨_, Shared.slotAt_put_self _ _ h, Or.inr rfl⟩
  · obtain ⟨m1, e, _, _⟩ := freeIfNeeded_total h
    exact ⟨false, m1, h, by rw [free_of_not_usable hv h hs, e]; rfl, by simp [hs],
      by simp, by simp⟩

/-- C7. `free` on an `Empty` slot returns false and leaves the region exactly
as it was, so any number of repeated calls all return false with the region,
and so `count`, unchanged. -/
theorem C7_free_empty_idempotent (m : Shared) (id : Int) (s : Slot)
    (hv : valid m id = true) (h : m.slotAt id.toNat = some s)
    (hs : s.state = SlotState.Empty) :
    free m id = some (false, m) ∧
      ∀ n : Nat, Nat.iterate (fun r => r.bind (fun p => free p.2 id)) n (some (false, m))
        = some (false, m) := by
  have hf : free m id = some (false, m) := by
    rw [free_of_not_usable hv h (by simp [hs]), freeIfNeeded_of_ne h (by simp [hs])]
    rfl
  refine ⟨hf, ?_⟩
  intro n
  induction n with
  | zero => rfl
  | succ k ih =>
    rw [Function.iterate_succ_apply', ih]
    simpa using hf

/-- C8. `closeForWriting` aborts exactly when the id is not valid or the slot is
not in state `Writing`; otherwise the slot becomes `Usable`, its `readLevel`
and the header `count` each grow by one, and the slot's key and metadata, the
limit and every other slot are unchanged. -/
theorem C8_closeForWriting_contract (m : Shared) (id : Int) (hw : m.WF) :
    (closeForWriting m id = none ↔
      ¬ (valid m id = true ∧
         (m.slotAt id.toNat).map (fun s => s.state) = some SlotState.Writing)) ∧
    (∀ s, valid m id = true → m.slotAt id.toNat = some s →
      s.state = SlotState.Writing →
      ∃ m1, closeForWriting m id = some m1 ∧
        m1.slotAt id.toNat =
          some ⟨SlotState.Usable, s.readLevel + 1, s.key, s.seBasics⟩ ∧
        m1.count = m.count + 1 ∧ m1.limit = m.limit ∧
        ∀ j, j ≠ id.toNat → m1.slotAt j = m.slotAt j) := by
  constructor
  · by_cases hv : valid m id = true
    · obtain ⟨s, h⟩ := slotAt_of_valid hw hv
      by_cases hs : s.state = SlotState.Writing
      · simp [closeForWriting_of_writing hv h hs, hv, h, hs]
      · simp [closeForWriting, hv, h, hs]
    · simp [closeForWriting, hv]
  · intro s hv h hs
    exact ⟨_, closeForWriting_of_writing hv h hs, Shared.slotAt_put_self _ _ h, rfl, rfl,
      fun j hj => Shared.slotAt_put_ne _ _ hj⟩

/-- C9. Index resolution: for `1 ≤ limit ≤ AbsoluteEntryLimit` the index of a
key with words `k0`, `k1` is `((k0 + k1) mod 2^64) mod limit`; it lies in
`[0, limit)`, so it is a valid id, and on a region holding `limit` slots neither
`openForWriting` nor `openForReading` aborts. -/
theorem C9_slotIdx_in_range (m : Shared) (key : CacheKey) (fileno : Int)
    (h1 : 1 ≤ m.limit) (h2 : m.limit ≤ AbsoluteEntryLimit) :
    ∃ idx, slotIdx m key = some idx ∧
      idx = (((key.k0 + key.k1) % 2 ^ 64 : Nat) : Int) % m.limit ∧
      0 ≤ idx ∧ idx < m.limit ∧ valid m idx = true ∧
      (m.slots.length = m.limit.toNat →
        (openForWriting m key fileno).isSome = true ∧
        (openForReading m key fileno).isSome = true) := by
  have h3 : m.limit ≤ 2147483647 := by
    unfold AbsoluteEntryLimit at h2
    omega
  have hi := slotIdx_of_limit key h1 h3
  have hv := slotIdx_valid h1 h3 hi
  refine ⟨_, hi, ?_, ?_, ?_, hv, ?_⟩
  · have e : ((m.limit.toNat : Nat) : Int) = m.limit := Int.toNat_of_nonneg (by omega)
    rw [Int.natCast_mod, e]
    norm_num
  · exact Int.natCast_nonneg _
  · simp only [valid, entryLimit, Bool.and_eq_true, decide_eq_true_eq] at hv
    exact hv.2
  · intro hlen
    exact ⟨openForWriting_total fileno ⟨hlen, h3⟩ hi hv,
      openForReading_total fileno ⟨hlen, h3⟩ hi hv⟩


/-! ## Scenarios on a fresh map -/

theorem writeEntry_create {L : Int} {key : CacheKey} {i : Int} (b : StoreEntryBasics)
    (h1 : 1 ≤ L) (h2 : L ≤ 2147483647) (hi : slotIdx (Shared.create L) key = some i) :
    valid (Shared.create L) i = true ∧
    (Shared.create L).slotAt i.toNat = some zeroSlot ∧
    writeEntry (Shared.create L) key b =
      some ((Shared.create L).put i.toNat ⟨SlotState.Usable, 1, key, b⟩ 1) := by
  have hv : valid (Shared.create L) i = true :=
    @slotIdx_valid (Shared.create L) key i h1 h2 hi
  have hs := create_slotAt hv
  refine ⟨hv, hs, ?_⟩
  rw [writeEntry_of_empty b hi hv hs rfl]
  simp [zeroSlot, Shared.create]

/-- C3 (as amended). From a fresh map, after key `A` is written and committed
at index `i`, `openForWriting` of any key `E` with the same index marks the
slot for removal but returns the null pointer and leaves `fileno` alone: the
slot is `WaitingToBeFreed`, still holds key `A`, its metadata and the hold
taken at commit, and `A` is no longer readable.  Once that hold is released by
`closeForReading(i)` the slot is `Empty`, and `openForWriting(E)` then succeeds
with `fileno = i`, leaving the slot `Writing` with key `E`. -/
theorem C3_collision_eviction_after_release (L : Int) (A E : CacheKey)
    (b : StoreEntryBasics) (i f : Int) (h1 : 1 ≤ L) (h2 : L ≤ 2147483647)
    (hA : slotIdx (Shared.create L) A = some i)
    (hE : slotIdx (Shared.create L) E = some i) :
    ∃ m1 m2 m3 m4,
      writeEntry (Shared.create L) A b = some m1 ∧
      openForWriting m1 E f = some ⟨none, f, m2⟩ ∧
      m2.slotAt i.toNat = some ⟨SlotState.WaitingToBeFreed, 1, A, b⟩ ∧
      m2.count = 1 ∧
      openForReading m2 A f = some ⟨none, f, m2⟩ ∧
      openForReadingAt m2 i = some (none, m2) ∧
      closeForReading m2 i = some m3 ∧
      m3.slotAt i.toNat = some zeroSlot ∧ m3.count = 0 ∧
      openForWriting m3 E f = some ⟨some i.toNat, i, m4⟩ ∧
      m4.slotAt i.toNat = some ⟨SlotState.Writing, 0, E, zeroBasics⟩ := by
  obtain ⟨hv, hs, e1⟩ := writeEntry_create b h1 h2 hA
  generalize Shared.create L = m0 at *
  have hs1 := Shared.slotAt_put_self ⟨SlotState.Usable, 1, A, b⟩ 1 hs
  have hs2 := Shared.slotAt_put_self ⟨SlotState.WaitingToBeFreed, 1, A, b⟩ 1 hs
  have hs3 := Shared.slotAt_put_self zeroSlot 0 hs
  have e2 : openForWriting (m0.put i.toNat ⟨SlotState.Usable, 1, A, b⟩ 1) E f
      = some ⟨none, f, m0.put i.toNat ⟨SlotState.WaitingToBeFreed, 1, A, b⟩ 1⟩ := by
    rw [openForWriting_of_usable_held f (by simpa using hE) (by simpa using hv) hs1 rfl
      (by show (0:Int) < 1; omega)]
    simp
  have e3 : openForReading (m0.put i.toNat ⟨SlotState.WaitingToBeFreed, 1, A, b⟩ 1) A f
      = some ⟨none, f, m0.put i.toNat ⟨SlotState.WaitingToBeFreed, 1, A, b⟩ 1⟩ := by
    rw [openForReading_of_not_usable f (by simpa using hA) (by simpa using hv) hs2
      (by simp), freeIfNeeded_of_held hs2 (by show (0:Int) < 1; omega)]
    rfl
  have e4 : openForReadingAt (m0.put i.toNat ⟨SlotState.WaitingToBeFreed, 1, A, b⟩ 1) i
      = some (none, m0.put i.toNat ⟨SlotState.WaitingToBeFreed, 1, A, b⟩ 1) := by
    rw [openForReadingAt_of_not_usable (by simpa using hv) hs2 (by simp),
      freeIfNeeded_of_held hs2 (by show (0:Int) < 1; omega)]
    rfl
  have e5 : closeForReading (m0.put i.toNat ⟨SlotState.WaitingToBeFreed, 1, A, b⟩ 1) i
      = some (m0.put i.toNat zeroSlot 0) := by
    rw [closeForReading_reclaim (by simpa using hv) hs2 rfl rfl]
    simp
  have e6 : openForWriting (m0.put i.toNat zeroSlot 0) E f
      = some ⟨some i.toNat, i, m0.put i.toNat ⟨SlotState.Writing, 0, E, zeroBasics⟩ 0⟩ := by
    rw [openForWriting_of_empty f (by simpa using hE) (by simpa using hv) hs3 rfl]
    simp [zeroSlot]
  exact ⟨_, _, _, _, e1, e2, hs2, rfl, e3, e4, e5, hs3, rfl, e6,
    Shared.slotAt_put_self _ _ hs⟩

/-- C4 (as amended). From a fresh map, after a key is written and committed at
slot `S` and a reader has opened it with `openForReadingAt(S)`, `free(S)`
returns true and leaves `S` in state `WaitingToBeFreed` with its key and
metadata unchanged.  The reader's `closeForReading(S)` leaves `S` still
`WaitingToBeFreed`, held by the hold taken at commit (`readLevel` 1); the slot
is `Empty` after one more `closeForReading(S)` releases that hold. -/
theorem C4_free_under_reader (L : Int) (key : CacheKey) (b : StoreEntryBasics) (S : Int)
    (h1 : 1 ≤ L) (h2 : L ≤ 2147483647)
    (hK : slotIdx (Shared.create L) key = some S) :
    ∃ m1 m2 m3 m4 m5,
      writeEntry (Shared.create L) key b = some m1 ∧
      openForReadingAt m1 S = some (some S.toNat, m2) ∧
      free m2 S = some (true, m3) ∧
      m3.slotAt S.toNat = some ⟨SlotState.WaitingToBeFreed, 2, key, b⟩ ∧
      readBasics m3 S.toNat = some b ∧
      closeForReading m3 S = some m4 ∧
      m4.slotAt S.toNat = some ⟨SlotState.WaitingToBeFreed, 1, key, b⟩ ∧
      closeForReading m4 S = some m5 ∧
      m5.slotAt S.toNat = some zeroSlot ∧ m5.count = 0 := by
  obtain ⟨hv, hs, e1⟩ := writeEntry_create b h1 h2 hK
  generalize Shared.create L = m0 at *
  have hs1 := Shared.slotAt_put_self ⟨SlotState.Usable, 1, key, b⟩ 1 hs
  have hs2 := Shared.slotAt_put_self ⟨SlotState.Usable, 2, key, b⟩ 1 hs
  have hs3 := Shared.slotAt_put_self ⟨SlotState.WaitingToBeFreed, 2, key, b⟩ 1 hs
  have hs4 := Shared.slotAt_put_self ⟨SlotState.WaitingToBeFreed, 1, key, b⟩ 1 hs
  have e2 : openForReadingAt (m0.put S.toNat ⟨SlotState.Usable, 1, key, b⟩ 1) S
      = some (some S.toNat, m0.put S.toNat ⟨SlotState.Usable, 2, key, b⟩ 1) := by
    rw [openForReadingAt_of_usable (by simpa using hv) hs1 rfl]
    have e : incr32 1 = 2 := by decide
    simp [e]
  have e3 : free (m0.put S.toNat ⟨SlotState.Usable, 2, key, b⟩ 1) S
      = some (true, m0.put S.toNat ⟨SlotState.WaitingToBeFreed, 2, key, b⟩ 1) := by
    rw [free_of_usable_held (by simpa using hv) hs2 rfl (by show (0:Int) < 2; omega)]
    simp
  have e4 : closeForReading (m0.put S.toNat ⟨SlotState.WaitingToBeFreed, 2, key, b⟩ 1) S
      = some (m0.put S.toNat ⟨SlotState.WaitingToBeFreed, 1, key, b⟩ 1) := by
    rw [closeForReading_keep (by simpa using hv) hs3 (by show (0:Int) < 2; omega) (Or.inr (by show (1:Int) < 2; omega))]
    simp
  have e5 : closeForReading (m0.put S.toNat ⟨SlotState.WaitingToBeFreed, 1, key, b⟩ 1) S
      = some (m0.put S.toNat zeroSlot 0) := by
    rw [closeForReading_reclaim (by simpa using hv) hs4 rfl rfl]
    simp
  refine ⟨_, _, _, _, _, e1, e2, e3, hs3, ?_, e4, hs4, e5,
    Shared.slotAt_put_self _ _ hs, rfl⟩
  simp [readBasics, hs3]


theorem create_slotAt_state {L : Int} {k : Nat} {s : Slot}
    (h : (Shared.create L).slotAt k = some s) : s.state = SlotState.Empty := by
  simp only [Shared.slotAt, Shared.create, List.getElem?_replicate] at h
  split at h
  · injection h with h
    subst h
    rfl
  · cases h

theorem toNat_ne_of_valid {m : Shared} {i j : Int} (hi : valid m i = true)
    (hj : valid m j = true) (h : j ≠ i) : j.toNat ≠ i.toNat := by
  simp only [valid, entryLimit, Bool.and_eq_true, decide_eq_true_eq] at hi hj
  omega

theorem writeEntries_of_empty (entries : List (CacheKey × StoreEntryBasics)) :
    ∀ m : Shared, m.WF → 1 ≤ m.limit →
      (entries.map (fun e => slotIdx m e.1)).Nodup →
      (∀ e ∈ entries, ∀ i s, slotIdx m e.1 = some i → m.slotAt i.toNat = some s →
        s.state = SlotState.Empty) →
      ∃ m1, writeEntries m entries = some m1 ∧
        m1.count = m.count + entries.length ∧ m1.limit = m.limit := by
  induction entries with
  | nil =>
    intro m _ _ _ _
    exact ⟨m, rfl, by simp, rfl⟩
  | cons e rest ih =>
    intro m hw h1 hnd hempty
    obtain ⟨i, hi⟩ : ∃ i, slotIdx m e.1 = some i := ⟨_, slotIdx_of_limit e.1 h1 hw.2⟩
    have hv := slotIdx_valid h1 hw.2 hi
    obtain ⟨s, hs⟩ := slotAt_of_valid hw hv
    have hst := hempty e (List.mem_cons_self _ _) _ s hi hs
    have e1 := writeEntry_of_empty e.2 hi hv hs hst
    rw [List.map_cons, List.nodup_cons] at hnd
    obtain ⟨m1, e2, hc, hl⟩ := ih
      (m.put i.toNat ⟨SlotState.Usable, s.readLevel + 1, e.1, e.2⟩ (m.count + 1))
      (Shared.put_WF _ _ _ hw) (by simpa using h1) (by simpa using hnd.2)
      (by
        intro e' he' j t hj ht
        have hj' : slotIdx m e'.1 = some j := by simpa using hj
        have hne : j ≠ i := by
          intro hEq
          apply hnd.1
          rw [hi, ← hEq, ← hj']
          exact List.mem_map_of_mem (fun e => slotIdx m e.1) he'
        have hvj := slotIdx_valid h1 hw.2 hj'
        rw [Shared.slotAt_put_ne _ _ (toNat_ne_of_valid hv hvj hne)] at ht
        exact hempty e' (List.mem_cons_of_mem _ he') j t hj' ht)
    refine ⟨m1, ?_, ?_, ?_⟩
    · simp only [writeEntries, e1, e2]
    · rw [hc]
      simp only [Shared.put_count, List.length_cons]
      push_cast
      ring
    · rw [hl]
      rfl

/-- C10. Capacity scenario: on a fresh map with `limit = L ≥ 1`, writing and
committing `L` entries whose keys have pairwise distinct slot indices succeeds
for every one of them; after the first `n` of them `entryCount()` is `n`, and
`full()` is true exactly when all `L` have been written (false for `n < L`). -/
theorem C10_capacity (L : Int) (entries : List (CacheKey × StoreEntryBasics))
    (h1 : 1 ≤ L) (h2 : L ≤ 2147483647) (hlen : (entries.length : Int) = L)
    (hnd : (entries.map (fun e => slotIdx (Shared.create L) e.1)).Nodup) :
    ∀ n, n ≤ entries.length →
      ∃ m1, writeEntries (Shared.create L) (entries.take n) = some m1 ∧
        entryCount m1 = n ∧ entryLimit m1 = L ∧
        (full m1 = true ↔ n = entries.length) ∧
        (n < entries.length → full m1 = false) := by
  intro n hn
  have hsub : ((entries.take n).map (fun e => slotIdx (Shared.create L) e.1)).Nodup :=
    hnd.sublist ((List.take_sublist n entries).map _)
  obtain ⟨m1, e, hc, hl⟩ := writeEntries_of_empty (entries.take n) (Shared.create L)
    (create_WF h2) h1 hsub
    (fun _ _ _ _ _ hs => create_slotAt_state hs)
  have hcnt : m1.count = (n : Int) := by
    rw [hc, List.length_take, Nat.min_eq_left hn]
    simp [Shared.create]
  have hlim : m1.limit = L := by rw [hl]; rfl
  refine ⟨m1, e, hcnt, hlim, ?_, ?_⟩
  · simp only [full, entryCount, entryLimit, hcnt, hlim, decide_eq_true_eq]
    omega
  · intro hlt
    simp only [full, entryCount, entryLimit, hcnt, hlim, decide_eq_false_iff_not]
    omega


/-! ## The claims at concrete inputs -/

/-- C1 at a concrete input: a fresh map of four slots, `exKeyA` (slot 1) and
the metadata `exBasics`. -/
theorem C1_witness :
    (Shared.create 4).WF ∧ slotIdx (Shared.create 4) exKeyA = some 1 ∧
    ∃ m1 m2 m3, openForWriting (Shared.create 4) exKeyA 0 = some ⟨some 1, 1, m1⟩ ∧
      closeForWriting (storeBasics m1 1 exBasics) 1 = some m2 ∧
      openForReading m2 exKeyA 0 = some ⟨some 1, 1, m3⟩ ∧
      readBasics m3 1 = some exBasics :=
  ⟨by decide, by decide,
    C1_write_read_round_trip (Shared.create 4) exKeyA exBasics 1 0 0 zeroSlot
      (by decide) (by decide) (by decide) (by decide) (by decide)⟩

/-- C2, the code at the failing input.  `exUsable` is the fresh map of four
slots after `exKeyA` was written and committed (slot 1, `readLevel` 1).
`openForReading` of the different key `exKeyE`, which maps to the same slot,
returns a non-null pointer to that slot and reports `fileno = 1`, and the
slot's `readLevel` is 2 afterwards: `checkKey` does not read its argument, so
the hold is kept and the other key's entry is handed out. -/
theorem C2_openForReading_other_key :
    writeEntry (Shared.create 4) exKeyA exBasics = some exUsable ∧
    exKeyE ≠ exKeyA ∧
    slotIdx exUsable exKeyA = some 1 ∧ slotIdx exUsable exKeyE = some 1 ∧
    exUsable.slotAt 1 = some ⟨SlotState.Usable, 1, exKeyA, exBasics⟩ ∧
    openForReading exUsable exKeyE 77 =
      some ⟨some 1, 1, exUsable.put 1 ⟨SlotState.Usable, 2, exKeyA, exBasics⟩ 1⟩ := by
  decide

/-- C3 fails as stated: after `exKeyA` is written and committed in a fresh map
of four slots (giving `exUsable`), `openForWriting` of the colliding key
`exKeyE` returns the null pointer, leaves `fileno` at 77 and leaves slot 1
`WaitingToBeFreed` with key `exKeyA`. -/
theorem C3_counterexample :
    writeEntry (Shared.create 4) exKeyA exBasics = some exUsable ∧
    exKeyE ≠ exKeyA ∧ slotIdx exUsable exKeyE = some 1 ∧
    openForWriting exUsable exKeyE 77 =
      some ⟨none, 77,
            exUsable.put 1 ⟨SlotState.WaitingToBeFreed, 1, exKeyA, exBasics⟩ 1⟩ := by
  decide

/-- C3 (as amended) at a concrete input: a fresh map of four slots with
`exKeyA` and `exKeyE`, both at slot 1. -/
theorem C3_witness :
    slotIdx (Shared.create 4) exKeyA = some 1 ∧
    slotIdx (Shared.create 4) exKeyE = some 1 ∧
    ∃ m1 m2 m3 m4,
      writeEntry (Shared.create 4) exKeyA exBasics = some m1 ∧
      openForWriting m1 exKeyE 77 = some ⟨none, 77, m2⟩ ∧
      m2.slotAt 1 = some ⟨SlotState.WaitingToBeFreed, 1, exKeyA, exBasics⟩ ∧
      m2.count = 1 ∧
      openForReading m2 exKeyA 77 = some ⟨none, 77, m2⟩ ∧
      openForReadingAt m2 1 = some (none, m2) ∧
      closeForReading m2 1 = some m3 ∧
      m3.slotAt 1 = some zeroSlot ∧ m3.count = 0 ∧
      openForWriting m3 exKeyE 77 = some ⟨some 1, 1, m4⟩ ∧
      m4.slotAt 1 = some ⟨SlotState.Writing, 0, exKeyE, zeroBasics⟩ :=
  ⟨by decide, by decide,
    C3_collision_eviction_after_release 4 exKeyA exKeyE exBasics 1 77
      (by decide) (by decide) (by decide) (by decide)⟩

/-- C4 fails as stated: with `exKeyA` committed at slot 1 and a reader holding
it, `free(1)` returns true and marks the slot, but after the reader's
`closeForReading(1)` the slot is still `WaitingToBeFreed` with `readLevel` 1,
not `Empty`. -/
theorem C4_counterexample :
    writeEntry (Shared.create 4) exKeyA exBasics = some exUsable ∧
    openForReadingAt exUsable 1 =
      some (some 1, exUsable.put 1 ⟨SlotState.Usable, 2, exKeyA, exBasics⟩ 1) ∧
    free (exUsable.put 1 ⟨SlotState.Usable, 2, exKeyA, exBasics⟩ 1) 1 =
      some (true, exUsable.put 1 ⟨SlotState.WaitingToBeFreed, 2, exKeyA, exBasics⟩ 1) ∧
    closeForReading
        (exUsable.put 1 ⟨SlotState.WaitingToBeFreed, 2, exKeyA, exBasics⟩ 1) 1 =
      some (exUsable.put 1 ⟨SlotState.WaitingToBeFreed, 1, exKeyA, exBasics⟩ 1) ∧
    (exUsable.put 1 ⟨SlotState.WaitingToBeFreed, 1, exKeyA, exBasics⟩ 1).slotAt 1 =
      some ⟨SlotState.WaitingToBeFreed, 1, exKeyA, exBasics⟩ := by
  decide

/-- C4 (as amended) at a concrete input: a fresh map of four slots and
`exKeyA` at slot 1. -/
theorem C4_witness :
    slotIdx (Shared.create 4) exKeyA = some 1 ∧
    ∃ m1 m2 m3 m4 m5,
      writeEntry (Shared.create 4) exKeyA exBasics = some m1 ∧
      openForReadingAt m1 1 = some (some 1, m2) ∧
      free m2 1 = some (true, m3) ∧
      m3.slotAt 1 = some ⟨SlotState.WaitingToBeFreed, 2, exKeyA, exBasics⟩ ∧
      readBasics m3 1 = some exBasics ∧
      closeForReading m3 1 = some m4 ∧
      m4.slotAt 1 = some ⟨SlotState.WaitingToBeFreed, 1, exKeyA, exBasics⟩ ∧
      closeForReading m4 1 = some m5 ∧
      m5.slotAt 1 = some zeroSlot ∧ m5.count = 0 :=
  ⟨by decide,
    C4_free_under_reader 4 exKeyA exBasics 1 (by decide) (by decide) (by decide)⟩

/-- C5 at a concrete input: `exWriting`, whose slot 1 is claimed, and
`exKeyE`, which maps to slot 1. -/
theorem C5_witness :
    exWriting.WF ∧ slotIdx exWriting exKeyE = some 1 ∧
    openForWriting exWriting exKeyE 77 = some ⟨none, 77, exWriting⟩ :=
  ⟨by decide, by decide,
    C5_openForWriting_while_writing exWriting exKeyE 1 77
      ⟨SlotState.Writing, 0, exKeyA, zeroBasics⟩
      (by decide) (by decide) (by decide) (by decide)⟩

/-- C6 at a concrete input: `free(1)` on `exUsable`. -/
theorem C6_witness :
    exUsable.WF ∧ valid exUsable 1 = true ∧
    ∃ s b m1, exUsable.slotAt 1 = some s ∧ free exUsable 1 = some (b, m1) ∧
      (b = true ↔ s.state = SlotState.Usable) ∧
      (b = true → ∃ t, m1.slotAt 1 = some t ∧
        (t.state = SlotState.WaitingToBeFreed ∨ t.state = SlotState.Empty)) ∧
      (s.state = SlotState.Empty ∨ s.state = SlotState.Writing ∨
        s.state = SlotState.WaitingToBeFreed → b = false) :=
  ⟨by decide, by decide, C6_free_result exUsable 1 (by decide) (by decide)⟩

/-- C7 at a concrete input: `free(2)` on `exUsable`, whose slot 2 is
`Empty`. -/
theorem C7_witness :
    valid exUsable 2 = true ∧ exUsable.slotAt 2 = some zeroSlot ∧
    free exUsable 2 = some (false, exUsable) :=
  ⟨by decide, by decide,
    (C7_free_empty_idempotent exUsable 2 zeroSlot (by decide) (by decide) (by decide)).1⟩

/-- C8 at a concrete input: `closeForWriting(1)` on `exWriting`. -/
theorem C8_witness :
    exWriting.WF ∧
    ∃ m1, closeForWriting exWriting 1 = some m1 ∧
      m1.slotAt 1 = some ⟨SlotState.Usable, 1, exKeyA, zeroBasics⟩ ∧
      m1.count = 1 ∧ m1.limit = 4 ∧
      ∀ j, j ≠ 1 → m1.slotAt j = exWriting.slotAt j :=
  ⟨by decide,
    (C8_closeForWriting_contract exWriting 1 (by decide)).2
      ⟨SlotState.Writing, 0, exKeyA, zeroBasics⟩ (by decide) (by decide) (by decide)⟩

/-- C9 at a concrete input: `exKeyE` on a fresh map of four slots. -/
theorem C9_witness :
    ∃ idx, slotIdx (Shared.create 4) exKeyE = some idx ∧
      idx = (((exKeyE.k0 + exKeyE.k1) % 2 ^ 64 : Nat) : Int) % (Shared.create 4).limit ∧
      0 ≤ idx ∧ idx < (Shared.create 4).limit ∧ valid (Shared.create 4) idx = true ∧
      ((Shared.create 4).slots.length = (Shared.create 4).limit.toNat →
        (openForWriting (Shared.create 4) exKeyE 0).isSome = true ∧
        (openForReading (Shared.create 4) exKeyE 0).isSome = true) :=
  C9_slotIdx_in_range (Shared.create 4) exKeyE 0 (by decide) (by decide)

/-- C10 at `L = 4`: the four entries of `exEntries` fill a fresh map of four
slots. -/
theorem C10_witness :
    (exEntries.map (fun e => slotIdx (Shared.create 4) e.1)).Nodup ∧
    ∃ m1, writeEntries (Shared.create 4) (exEntries.take 4) = some m1 ∧
      entryCount m1 = (4 : Nat) ∧ entryLimit m1 = 4 ∧
      (full m1 = true ↔ 4 = exEntries.length) ∧
      (4 < exEntries.length → full m1 = false) :=
  ⟨by decide,
    C10_capacity 4 exEntries (by decide) (by decide) (by decide) (by decide) 4
      (by decide)⟩


/-! ## Writers on different slots -/

theorem put_comm (m : Shared) {i j : Nat} (s t : Slot) (c d e : Int) (h : i ≠ j) :
    (m.put i s c).put j t e = (m.put j t d).put i s e := by
  simp [Shared.put, List.set_comm s t m.slots h]

/-- C11. Writers on different slots do not interfere: when two keys map to
different slots that are both `Empty`, `openForWriting` of the two keys
succeeds in either order, each call leaves every slot other than its own, the
count and the limit as they were, and both orders end in the same region. -/
theorem C11_writers_commute (m : Shared) (k1 k2 : CacheKey) (i1 i2 f : Int)
    (s1 s2 : Slot) (hw : m.WF)
    (h1 : slotIdx m k1 = some i1) (h2 : slotIdx m k2 = some i2) (hne : i1 ≠ i2)
    (hs1 : m.slotAt i1.toNat = some s1) (he1 : s1.state = SlotState.Empty)
    (hs2 : m.slotAt i2.toNat = some s2) (he2 : s2.state = SlotState.Empty) :
    ∃ a b ab ba,
      openForWriting m k1 f = some ⟨some i1.toNat, i1, a⟩ ∧
      openForWriting a k2 f = some ⟨some i2.toNat, i2, ab⟩ ∧
      openForWriting m k2 f = some ⟨some i2.toNat, i2, b⟩ ∧
      openForWriting b k1 f = some ⟨some i1.toNat, i1, ba⟩ ∧
      ab = ba ∧
      (a.count = m.count ∧ a.limit = m.limit ∧
        ∀ j, j ≠ i1.toNat → a.slotAt j = m.slotAt j) ∧
      (ab.count = a.count ∧ ab.limit = a.limit ∧
        ∀ j, j ≠ i2.toNat → ab.slotAt j = a.slotAt j) ∧
      (b.count = m.count ∧ b.limit = m.limit ∧
        ∀ j, j ≠ i2.toNat → b.slotAt j = m.slotAt j) ∧
      (ba.count = b.count ∧ ba.limit = b.limit ∧
        ∀ j, j ≠ i1.toNat → ba.slotAt j = b.slotAt j) := by
  have hlen := Shared.lt_length_of_slotAt hs1
  have hl : 1 ≤ m.limit := by
    have := hw.1
    omega
  have hv1 := slotIdx_valid hl hw.2 h1
  have hv2 := slotIdx_valid hl hw.2 h2
  have hn12 : i1.toNat ≠ i2.toNat := toNat_ne_of_valid hv2 hv1 hne
  have hn21 : i2.toNat ≠ i1.toNat := Ne.symm hn12
  have ea := openForWriting_of_empty f h1 hv1 hs1 he1
  have eb := openForWriting_of_empty f h2 hv2 hs2 he2
  have hs2a : (m.put i1.toNat { s1 with state := SlotState.Writing, key := k1 }
      m.count).slotAt i2.toNat = some s2 := by
    rw [Shared.slotAt_put_ne _ _ hn21]; exact hs2
  have hs1b : (m.put i2.toNat { s2 with state := SlotState.Writing, key := k2 }
      m.count).slotAt i1.toNat = some s1 := by
    rw [Shared.slotAt_put_ne _ _ hn12]; exact hs1
  have eab := openForWriting_of_empty f
    (by simpa using h2) (by simpa using hv2) hs2a he2
  have eba := openForWriting_of_empty f
    (by simpa using h1) (by simpa using hv1) hs1b he1
  refine ⟨_, _, _, _, ea, eab, eb, eba, ?_,
    ⟨rfl, rfl, fun j hj => Shared.slotAt_put_ne _ _ hj⟩,
    ⟨rfl, rfl, fun j hj => Shared.slotAt_put_ne _ _ hj⟩,
    ⟨rfl, rfl, fun j hj => Shared.slotAt_put_ne _ _ hj⟩,
    ⟨rfl, rfl, fun j hj => Shared.slotAt_put_ne _ _ hj⟩⟩
  simp only [Shared.put_count]
  exact put_comm m _ _ _ _ _ hn12

/-! ## Deferred free -/

/-- C13. Reclamation: on a slot that is `WaitingToBeFreed` with `readLevel` 0,
`freeIfNeeded` leaves the slot `Empty` with an all-zero key and all-zero
metadata, lowers the header count by exactly one, and leaves the limit and
every other slot unchanged. -/
theorem C13_freeIfNeeded_reclaims (m : Shared) (i : Nat) (s : Slot)
    (h : m.slotAt i = some s) (hs : s.state = SlotState.WaitingToBeFreed)
    (hr : s.readLevel = 0) :
    ∃ m1, freeIfNeeded m i = some m1 ∧
      m1.slotAt i = some ⟨SlotState.Empty, 0, zeroKey, zeroBasics⟩ ∧
      m1.count = m.count - 1 ∧ m1.limit = m.limit ∧
      ∀ j, j ≠ i → m1.slotAt j = m.slotAt j := by
  refine ⟨_, freeIfNeeded_of_unheld h hs (by omega), ?_, rfl, rfl,
    fun j hj => Shared.slotAt_put_ne _ _ hj⟩
  rw [Shared.slotAt_put_self _ _ h, hr]

/-- C15. `freeIfNeeded` is idempotent: applying it to a slot twice in a row
gives exactly the region that applying it once gives. -/
theorem C15_freeIfNeeded_idempotent (m : Shared) (i : Nat) :
    (freeIfNeeded m i).bind (fun m1 => freeIfNeeded m1 i) = freeIfNeeded m i := by
  cases h : m.slotAt i with
  | none => simp [freeIfNeeded, h]
  | some s =>
    by_cases hk : 0 < s.readLevel ∨ s.state ≠ SlotState.WaitingToBeFreed
    · have e : freeIfNeeded m i = some m := by
        rcases hk with hr | hs
        · exact freeIfNeeded_of_held h hr
        · exact freeIfNeeded_of_ne h hs
      simp [e]
    · push_neg at hk
      have e := freeIfNeeded_of_unheld h hk.2 hk.1
      have h1 := Shared.slotAt_put_self
        (⟨SlotState.Empty, s.readLevel, zeroKey, zeroBasics⟩ : Slot) (m.count - 1) h
      rw [e]
      simp only [Option.some_bind]
      exact freeIfNeeded_of_ne h1 (by simp)

/-! ## Region naming -/

theorem splitAtSlash_some {l seg rest : List Char} (h : splitAtSlash l = some (seg, rest)) :
    l = seg ++ '/' :: rest ∧ '/' ∉ seg := by
  induction l generalizing seg with
  | nil => simp [splitAtSlash] at h
  | cons c cs ih =>
    unfold splitAtSlash at h
    by_cases hc : c = '/'
    · simp only [hc, if_true, Option.some.injEq, Prod.mk.injEq] at h
      obtain ⟨h1, h2⟩ := h
      subst h1 h2 hc
      simp
    · simp only [hc, if_false] at h
      cases hr : splitAtSlash cs with
      | none => simp [hr] at h
      | some p =>
        obtain ⟨seg1, rest1⟩ := p
        simp only [hr, Option.some.injEq, Prod.mk.injEq] at h
        obtain ⟨h1, h2⟩ := h
        subst h1 h2
        obtain ⟨e, hn⟩ := ih hr
        refine ⟨by rw [e]; rfl, ?_⟩
        simp only [List.mem_cons, not_or]
        exact ⟨fun hEq => hc hEq.symm, hn⟩

theorem splitAtSlash_none {l : List Char} (h : splitAtSlash l = none) : '/' ∉ l := by
  induction l with
  | nil => simp
  | cons c cs ih =>
    unfold splitAtSlash at h
    by_cases hc : c = '/'
    · simp [hc] at h
    · simp only [hc, if_false] at h
      cases hr : splitAtSlash cs with
      | none =>
        simp only [List.mem_cons, not_or]
        exact ⟨fun hEq => hc hEq.symm, ih hr⟩
      | some p => simp [hr] at h

theorem sharedMemoryNameLoop_no_slash (fuel : Nat) :
    ∀ begin result : List Char, begin.length < fuel → '/' ∉ result →
      ∃ r, sharedMemoryNameLoop fuel begin result = some r ∧ '/' ∉ r := by
  induction fuel with
  | zero => intro begin result h; omega
  | succ n ih =>
    intro begin result hlen hres
    unfold sharedMemoryNameLoop
    cases hsp : splitAtSlash begin with
    | none =>
      refine ⟨result ++ begin, rfl, ?_⟩
      simp only [List.mem_append, not_or]
      exact ⟨hres, splitAtSlash_none hsp⟩
    | some p =>
      obtain ⟨seg, rest⟩ := p
      obtain ⟨e, hn⟩ := splitAtSlash_some hsp
      have hl : rest.length < n := by
        have : begin.length = seg.length + (rest.length + 1) := by rw [e]; simp
        omega
      apply ih rest _ hl
      split
      · simp only [List.mem_append, List.mem_singleton, not_or]
        exact ⟨⟨hres, hn⟩, by decide⟩
      · exact hres

theorem map_dot_of_no_slash {seg : List Char} (h : '/' ∉ seg) :
    seg.map (fun c => if c = '/' then '.' else c) = seg := by
  induction seg with
  | nil => rfl
  | cons c cs ih =>
    simp only [List.mem_cons, not_or] at h
    have hc : ¬ c = '/' := fun hEq => h.1 hEq.symm
    simp [hc, ih h.2]

theorem sharedMemoryNameLoop_dots (fuel : Nat) :
    ∀ begin result : List Char, begin.length < fuel → begin.head? ≠ some '/' →
      List.Chain' (fun a b => ¬ (a = '/' ∧ b = '/')) begin →
      sharedMemoryNameLoop fuel begin result =
        some (result ++ begin.map (fun c => if c = '/' then '.' else c)) := by
  induction fuel with
  | zero => intro begin result h; omega
  | succ n ih =>
    intro begin result hlen hhead hch
    unfold sharedMemoryNameLoop
    cases hsp : splitAtSlash begin with
    | none =>
      simp only [map_dot_of_no_slash (splitAtSlash_none hsp)]
    | some p =>
      obtain ⟨seg, rest⟩ := p
      obtain ⟨e, hn⟩ := splitAtSlash_some hsp
      subst e
      have hl : rest.length < n := by
        simp at hlen
        omega
      have hseg : seg ≠ [] := by
        intro h0
        subst h0
        simp at hhead
      have hch2 : List.Chain' (fun a b => ¬ (a = '/' ∧ b = '/')) ('/' :: rest) :=
        (List.chain'_append.mp hch).2.1
      have hhead2 : rest.head? ≠ some '/' := by
        cases rest with
        | nil => simp
        | cons d ds =>
          have := (List.chain'_cons.mp hch2).1
          simp only [true_and] at this
          simpa using this
      simp only [hseg, ne_eq, not_false_eq_true, if_true]
      rw [ih rest _ hl hhead2 (List.chain'_cons'.mp hch2).2]
      simp [map_dot_of_no_slash hn]

/-- C12. Region naming: for every cache-directory path `sharedMemoryName`
returns a name without any `'/'`; for a path with no leading `'/'` and no two
adjacent `'/'` the name is the path with each `'/'` replaced by `'.'`. -/
theorem C12_sharedMemoryName (path : List Char) :
    ∃ r, sharedMemoryName path = some r ∧ '/' ∉ r ∧
      (path.head? ≠ some '/' →
        List.Chain' (fun a b => ¬ (a = '/' ∧ b = '/')) path →
        r = path.map (fun c => if c = '/' then '.' else c)) := by
  obtain ⟨r, e, hr⟩ := sharedMemoryNameLoop_no_slash (path.length + 1) path []
    (Nat.lt_succ_self _) (by simp)
  refine ⟨r, e, hr, ?_⟩
  intro hh hc
  have e2 := sharedMemoryNameLoop_dots (path.length + 1) path [] (Nat.lt_succ_self _) hh hc
  rw [e2] at e
  injection e with e
  rw [← e]
  simp

/-! ## The effect of one call -/

theorem openForReadingAt_some {m : Shared} {fileno : Int} {r : Option Nat × Shared}
    (h : openForReadingAt m fileno = some r) :
    valid m fileno = true ∧ ∃ s, m.slotAt fileno.toNat = some s := by
  by_cases hv : valid m fileno = true
  · cases hs : m.slotAt fileno.toNat with
    | none => simp [openForReadingAt, hv, hs] at h
    | some s => exact ⟨hv, s, rfl⟩
  · simp [openForReadingAt, hv] at h

theorem free_some {m : Shared} {fileno : Int} {r : Bool × Shared}
    (h : free m fileno = some r) :
    valid m fileno = true ∧ ∃ s, m.slotAt fileno.toNat = some s := by
  cases ho : openForReadingAt m fileno with
  | none => simp [free, ho] at h
  | some q => exact openForReadingAt_some ho

theorem closeForWriting_some {m m1 : Shared} {fileno : Int}
    (h : closeForWriting m fileno = some m1) :
    valid m fileno = true ∧
      ∃ s, m.slotAt fileno.toNat = some s ∧ s.state = SlotState.Writing := by
  by_cases hv : valid m fileno = true
  · cases hs : m.slotAt fileno.toNat with
    | none => simp [closeForWriting, hv, hs] at h
    | some s =>
      by_cases hw : s.state = SlotState.Writing
      · exact ⟨hv, s, rfl, hw⟩
      · simp [closeForWriting, hv, hs, hw] at h
  · simp [closeForWriting, hv] at h

theorem closeForReading_some {m m1 : Shared} {fileno : Int}
    (h : closeForReading m fileno = some m1) :
    valid m fileno = true ∧ ∃ s, m.slotAt fileno.toNat = some s ∧ 0 < s.readLevel := by
  by_cases hv : valid m fileno = true
  · cases hs : m.slotAt fileno.toNat with
    | none => simp [closeForReading, hv, hs] at h
    | some s =>
      by_cases hr : 0 < s.readLevel
      · exact ⟨hv, s, rfl, hr⟩
      · simp [closeForReading, hv, hs, hr] at h
  · simp [closeForReading, hv] at h

theorem openForWriting_some {m : Shared} {key : CacheKey} {fileno : Int} {r : Opened}
    (h : openForWriting m key fileno = some r) :
    ∃ idx, slotIdx m key = some idx ∧ valid m idx = true ∧
      ∃ s, m.slotAt idx.toNat = some s := by
  cases hi : slotIdx m key with
  | none => simp [openForWriting, hi] at h
  | some idx =>
    cases hf : free m idx with
    | none => simp [openForWriting, hi, hf] at h
    | some q => exact ⟨idx, rfl, free_some hf⟩

theorem openForReading_some {m : Shared} {key : CacheKey} {fileno : Int} {r : Opened}
    (h : openForReading m key fileno = some r) :
    ∃ idx, slotIdx m key = some idx ∧ valid m idx = true ∧
      ∃ s, m.slotAt idx.toNat = some s := by
  cases hi : slotIdx m key with
  | none => simp [openForReading, hi] at h
  | some idx =>
    cases hf : openForReadingAt m idx with
    | none => simp [openForReading, hi, hf] at h
    | some q => exact ⟨idx, rfl, openForReadingAt_some hf⟩

theorem freeIfNeeded_shape (op : Op) {m : Shared} {i : Nat} {s : Slot}
    (h : m.slotAt i = some s) :
    ∃ s1 c1, freeIfNeeded m i = some (m.put i s1 c1) ∧ SlotStep op s m.count s1 c1 := by
  by_cases hk : 0 < s.readLevel ∨ s.state ≠ SlotState.WaitingToBeFreed
  · refine ⟨s, m.count, ?_, SlotStep.same s m.count⟩
    rw [Shared.put_self h]
    rcases hk with hr | hs
    · exact freeIfNeeded_of_held h hr
    · exact freeIfNeeded_of_ne h hs
  · push_neg at hk
    exact ⟨_, _, freeIfNeeded_of_unheld h hk.2 hk.1, SlotStep.reclaim s m.count (Or.inr hk.2) hk.1⟩

theorem openForReadingAt_shape {m : Shared} {fileno : Int} {s : Slot}
    (hv : valid m fileno = true) (h : m.slotAt fileno.toNat = some s) :
    ∃ p s1 c1, openForReadingAt m fileno = some (p, m.put fileno.toNat s1 c1) ∧
      SlotStep (Op.openForReadingAt fileno) s m.count s1 c1 := by
  by_cases hs : s.state = SlotState.Usable
  · exact ⟨_, _, _, openForReadingAt_of_usable hv h hs, SlotStep.hold s m.count rfl hs⟩
  · obtain ⟨s1, c1, e, st⟩ := freeIfNeeded_shape _ h
    exact ⟨none, s1, c1, by rw [openForReadingAt_of_not_usable hv h hs, e]; rfl, st⟩

theorem free_shape {m : Shared} {fileno : Int} {s : Slot}
    (hv : valid m fileno = true) (h : m.slotAt fileno.toNat = some s) :
    ∃ b s1 c1, free m fileno = some (b, m.put fileno.toNat s1 c1) ∧
      SlotStep (Op.free fileno) s m.count s1 c1 := by
  by_cases hs : s.state = SlotState.Usable
  · by_cases hr : 0 < s.readLevel
    · exact ⟨_, _, _, free_of_usable_held hv h hs hr, SlotStep.mark s m.count hs hr⟩
    · exact ⟨_, _, _, free_of_usable_unheld hv h hs (by omega),
        SlotStep.reclaim s m.count (Or.inl hs) (by omega)⟩
  · obtain ⟨s1, c1, e, st⟩ := freeIfNeeded_shape _ h
    exact ⟨false, s1, c1, by rw [free_of_not_usable hv h hs, e]; rfl, st⟩

theorem openForReading_shape {m : Shared} {key : CacheKey} {idx : Int} {s : Slot}
    (fileno : Int) (hi : slotIdx m key = some idx) (hv : valid m idx = true)
    (h : m.slotAt idx.toNat = some s) :
    ∃ p f s1 c1, openForReading m key fileno = some ⟨p, f, m.put idx.toNat s1 c1⟩ ∧
      SlotStep (Op.openForReading key fileno) s m.count s1 c1 := by
  by_cases hs : s.state = SlotState.Usable
  · exact ⟨_, _, _, _, openForReading_of_usable fileno hi hv h hs,
      SlotStep.hold s m.count rfl hs⟩
  · obtain ⟨s1, c1, e, st⟩ := freeIfNeeded_shape _ h
    exact ⟨none, fileno, s1, c1,
      by rw [openForReading_of_not_usable fileno hi hv h hs, e]; rfl, st⟩

theorem openForWriting_of_unheld {m : Shared} {key : CacheKey} {idx : Int} {s : Slot}
    (fileno : Int) (hi : slotIdx m key = some idx) (hv : valid m idx = true)
    (h : m.slotAt idx.toNat = some s)
    (hs : s.state = SlotState.Usable ∨ s.state = SlotState.WaitingToBeFreed)
    (hr : s.readLevel ≤ 0) :
    openForWriting m key fileno =
      some ⟨some idx.toNat, idx,
            m.put idx.toNat ⟨SlotState.Writing, s.readLevel, key, zeroBasics⟩
              (m.count - 1)⟩ := by
  have hf : free m idx = some (true, m.put idx.toNat
        ⟨SlotState.Empty, s.readLevel, zeroKey, zeroBasics⟩ (m.count - 1)) ∨
      free m idx = some (false, m.put idx.toNat
        ⟨SlotState.Empty, s.readLevel, zeroKey, zeroBasics⟩ (m.count - 1)) := by
    rcases hs with hs | hs
    · exact Or.inl (free_of_usable_unheld hv h hs hr)
    · right
      rw [free_of_not_usable hv h (by simp [hs]), freeIfNeeded_of_unheld h hs hr]
      rfl
  rcases hf with hf | hf <;>
    simp [openForWriting, hi, hf, Shared.slotAt_put_self _ _ h, Slot.swap_if, Slot.setKey,
      Shared.setSlot_eq_put]

theorem openForWriting_of_waiting_held {m : Shared} {key : CacheKey} {idx : Int}
    {s : Slot} (fileno : Int) (hi : slotIdx m key = some idx) (hv : valid m idx = true)
    (h : m.slotAt idx.toNat = some s) (hs : s.state = SlotState.WaitingToBeFreed)
    (hr : 0 < s.readLevel) :
    openForWriting m key fileno = some ⟨none, fileno, m⟩ := by
  have hf : free m idx = some (false, m) := by
    rw [free_of_not_usable hv h (by simp [hs]), freeIfNeeded_of_held h hr]
    rfl
  simp [openForWriting, hi, hf, h, Slot.swap_if, hs]

theorem openForWriting_shape {m : Shared} {key : CacheKey} {idx : Int} {s : Slot}
    (fileno : Int) (hi : slotIdx m key = some idx) (hv : valid m idx = true)
    (h : m.slotAt idx.toNat = some s) :
    ∃ p f s1 c1, openForWriting m key fileno = some ⟨p, f, m.put idx.toNat s1 c1⟩ ∧
      SlotStep (Op.openForWriting key fileno) s m.count s1 c1 := by
  have hsame : m.put idx.toNat s m.count = m := Shared.put_self h
  by_cases hr : 0 < s.readLevel
  · cases hst : s.state with
    | Empty =>
      exact ⟨_, _, _, _, openForWriting_of_empty fileno hi hv h hst,
        SlotStep.claim s m.count key fileno rfl hst⟩
    | Writing =>
      exact ⟨none, fileno, s, m.count,
        by rw [hsame]; exact openForWriting_of_busy fileno hi hv h (Or.inl hst),
        SlotStep.same s m.count⟩
    | Usable =>
      exact ⟨_, _, _, _, openForWriting_of_usable_held fileno hi hv h hst hr,
        SlotStep.mark s m.count hst hr⟩
    | WaitingToBeFreed =>
      exact ⟨none, fileno, s, m.count,
        by rw [hsame]; exact openForWriting_of_waiting_held fileno hi hv h hst hr,
        SlotStep.same s m.count⟩
    | Freeing =>
      exact ⟨none, fileno, s, m.count,
        by rw [hsame]; exact openForWriting_of_busy fileno hi hv h (Or.inr hst),
        SlotStep.same s m.count⟩
  · cases hst : s.state with
    | Empty =>
      exact ⟨_, _, _, _, openForWriting_of_empty fileno hi hv h hst,
        SlotStep.claim s m.count key fileno rfl hst⟩
    | Writing =>
      exact ⟨none, fileno, s, m.count,
        by rw [hsame]; exact openForWriting_of_busy fileno hi hv h (Or.inl hst),
        SlotStep.same s m.count⟩
    | Usable =>
      exact ⟨_, _, _, _, openForWriting_of_unheld fileno hi hv h (Or.inl hst) (by omega),
        SlotStep.reclaimClaim s m.count key fileno rfl (Or.inl hst) (by omega)⟩
    | WaitingToBeFreed =>
      exact ⟨_, _, _, _, openForWriting_of_unheld fileno hi hv h (Or.inr hst) (by omega),
        SlotStep.reclaimClaim s m.count key fileno rfl (Or.inr hst) (by omega)⟩
    | Freeing =>
      exact ⟨none, fileno, s, m.count,
        by rw [hsame]; exact openForWriting_of_busy fileno hi hv h (Or.inr hst),
        SlotStep.same s m.count⟩

theorem closeForReading_shape {m : Shared} {fileno : Int} {s : Slot}
    (hv : valid m fileno = true) (h : m.slotAt fileno.toNat = some s)
    (hr : 0 < s.readLevel) :
    ∃ s1 c1, closeForReading m fileno = some (m.put fileno.toNat s1 c1) ∧
      CloseStep s m.count s1 c1 := by
  by_cases hk : s.state ≠ SlotState.WaitingToBeFreed ∨ 1 < s.readLevel
  · exact ⟨_, _, closeForReading_keep hv h hr hk, CloseStep.release s m.count hr hk⟩
  · push_neg at hk
    have h1 : s.readLevel = 1 := by omega
    exact ⟨_, _, closeForReading_reclaim hv h hk.1 h1,
      CloseStep.releaseReclaim s m.count hk.1 h1⟩

/-- Every call that does not abort, other than `closeForReading`, rewrites one
slot and the count as `SlotStep` allows. -/
theorem run_shape {m m1 : Shared} {op : Op} (h : op.run m = some m1)
    (hop : ∀ f, op ≠ Op.closeForReading f) :
    ∃ i s s1 c1, op.slot m = some i ∧ m.slotAt i = some s ∧ m1 = m.put i s1 c1 ∧
      SlotStep op s m.count s1 c1 := by
  cases op with
  | openForWriting key fileno =>
    simp only [Op.run, Option.map_eq_some'] at h
    obtain ⟨r, hr, e⟩ := h
    obtain ⟨idx, hi, hv, s, hs⟩ := openForWriting_some hr
    obtain ⟨p, f, s1, c1, e1, st⟩ := openForWriting_shape fileno hi hv hs
    rw [e1] at hr
    injection hr with hr
    subst hr
    exact ⟨_, s, s1, c1, by simp [Op.slot, hi], hs, e.symm, st⟩
  | store p b =>
    simp only [Op.run] at h
    cases hs : m.slotAt p with
    | none => simp [hs] at h
    | some s =>
      by_cases hw : s.state = SlotState.Writing
      · simp only [hs, hw, if_true, Option.some.injEq] at h
        refine ⟨p, s, { s with seBasics := b }, m.count, rfl, hs, ?_,
          SlotStep.store s m.count b hw⟩
        rw [← h]
        simp [storeBasics, hs, Shared.setSlot_eq_put]
      · simp [hs, hw] at h
  | closeForWriting fileno =>
    simp only [Op.run] at h
    obtain ⟨hv, s, hs, hw⟩ := closeForWriting_some h
    rw [closeForWriting_of_writing hv hs hw] at h
    injection h with h
    exact ⟨_, s, _, _, rfl, hs, h.symm, SlotStep.commit s m.count hw⟩
  | openForReading key fileno =>
    simp only [Op.run, Option.map_eq_some'] at h
    obtain ⟨r, hr, e⟩ := h
    obtain ⟨idx, hi, hv, s, hs⟩ := openForReading_some hr
    obtain ⟨p, f, s1, c1, e1, st⟩ := openForReading_shape fileno hi hv hs
    rw [e1] at hr
    injection hr with hr
    subst hr
    exact ⟨_, s, s1, c1, by simp [Op.slot, hi], hs, e.symm, st⟩
  | openForReadingAt fileno =>
    simp only [Op.run, Option.map_eq_some'] at h
    obtain ⟨r, hr, e⟩ := h
    obtain ⟨hv, s, hs⟩ := openForReadingAt_some hr
    obtain ⟨p, s1, c1, e1, st⟩ := openForReadingAt_shape hv hs
    rw [e1] at hr
    injection hr with hr
    subst hr
    exact ⟨_, s, s1, c1, rfl, hs, e.symm, st⟩
  | closeForReading fileno => exact absurd rfl (hop fileno)
  | free fileno =>
    simp only [Op.run, Option.map_eq_some'] at h
    obtain ⟨r, hr, e⟩ := h
    obtain ⟨hv, s, hs⟩ := free_some hr
    obtain ⟨b, s1, c1, e1, st⟩ := free_shape hv hs
    rw [e1] at hr
    injection hr with hr
    subst hr
    exact ⟨_, s, s1, c1, rfl, hs, e.symm, st⟩
  | freeIfNeeded i =>
    simp only [Op.run] at h
    cases hs : m.slotAt i with
    | none => simp [freeIfNeeded, hs] at h
    | some s =>
      obtain ⟨s1, c1, e1, st⟩ := freeIfNeeded_shape _ hs
      rw [e1] at h
      injection h with h
      exact ⟨i, s, s1, c1, rfl, hs, h.symm, st⟩

/-- A `closeForReading` that does not abort rewrites one slot and the count as
`CloseStep` allows. -/
theorem run_shape_close {m m1 : Shared} {fileno : Int}
    (h : (Op.closeForReading fileno).run m = some m1) :
    ∃ i s s1 c1, (Op.closeForReading fileno).slot m = some i ∧ m.slotAt i = some s ∧
      m1 = m.put i s1 c1 ∧ CloseStep s m.count s1 c1 := by
  simp only [Op.run] at h
  obtain ⟨hv, s, hs, hr⟩ := closeForReading_some h
  obtain ⟨s1, c1, e1, st⟩ := closeForReading_shape hv hs hr
  rw [e1] at h
  injection h with h
  exact ⟨_, s, s1, c1, rfl, hs, h.symm, st⟩

/-! ## Invariants of reachable regions -/

theorem run_cases {m m1 : Shared} {op : Op} (h : op.run m = some m1) :
    ∃ i s s1 c1, op.slot m = some i ∧ m.slotAt i = some s ∧ m1 = m.put i s1 c1 ∧
      ((SlotStep op s m.count s1 c1 ∧ ∀ f, op ≠ Op.closeForReading f) ∨
       (CloseStep s m.count s1 c1 ∧ ∃ f, op = Op.closeForReading f)) := by
  by_cases hop : ∀ f, op ≠ Op.closeForReading f
  · obtain ⟨i, s, s1, c1, hi, hs, e, st⟩ := run_shape h hop
    exact ⟨i, s, s1, c1, hi, hs, e, Or.inl ⟨st, hop⟩⟩
  · push_neg at hop
    obtain ⟨f, hf⟩ := hop
    subst hf
    obtain ⟨i, s, s1, c1, hi, hs, e, st⟩ := run_shape_close h
    exact ⟨i, s, s1, c1, hi, hs, e, Or.inr ⟨st, f, rfl⟩⟩

theorem forall_slots_put {P : Slot → Prop} {m : Shared} {i : Nat} {s : Slot} (s1 : Slot)
    (c1 : Int) (h : m.slotAt i = some s) (hP : ∀ j t, m.slotAt j = some t → P t)
    (h1 : P s1) : ∀ j t, (m.put i s1 c1).slotAt j = some t → P t := by
  intro j t ht
  by_cases hj : j = i
  · subst hj
    rw [Shared.slotAt_put_self _ _ h] at ht
    injection ht with ht
    rw [← ht]
    exact h1
  · rw [Shared.slotAt_put_ne _ _ hj] at ht
    exact hP j t ht

theorem reachable_size {allowed : Op → Bool} {L : Int} {m : Shared}
    (h : ReachableBy allowed L m) : m.limit = L ∧ m.slots.length = L.toNat := by
  induction h with
  | fresh => simp [Shared.create]
  | step op _ _ hrun ih =>
    obtain ⟨i, s, s1, c1, _, _, e, _⟩ := run_cases hrun
    subst e
    simpa using ih

theorem create_slot {L : Int} {j : Nat} {t : Slot}
    (ht : (Shared.create L).slotAt j = some t) : t = zeroSlot := by
  simp only [Shared.slotAt, Shared.create, List.getElem?_replicate] at ht
  split at ht
  · injection ht with ht
    exact ht.symm
  · cases ht

theorem reachable_slots {allowed : Op → Bool} {L : Int} {m : Shared} {P : Slot → Prop}
    (h0 : P zeroSlot)
    (hstep : ∀ op s c s1 c1, allowed op = true → P s →
      SlotStep op s c s1 c1 ∨ CloseStep s c s1 c1 → P s1)
    (h : ReachableBy allowed L m) : ∀ j t, m.slotAt j = some t → P t := by
  induction h with
  | fresh =>
    intro j t ht
    rw [create_slot ht]
    exact h0
  | @step m0 _ op _ hal hrun ih =>
    obtain ⟨i, s, s1, c1, _, hs, e, st⟩ := run_cases hrun
    subst e
    have st1 : SlotStep op s m0.count s1 c1 ∨ CloseStep s m0.count s1 c1 := by
      rcases st with st | st
      · exact Or.inl st.1
      · exact Or.inr st.1
    exact forall_slots_put s1 c1 hs ih (hstep op s _ s1 c1 hal (ih i s hs) st1)

theorem reachableWhile_slots {guard : Shared → Op → Bool} {L : Int} {m : Shared}
    {P : Slot → Prop} (h0 : P zeroSlot)
    (hstep : ∀ m op i s s1 c1, guard m op = true → op.slot m = some i →
      m.slotAt i = some s → P s →
      (SlotStep op s m.count s1 c1 ∧ ∀ f, op ≠ Op.closeForReading f) ∨
        (CloseStep s m.count s1 c1 ∧ ∃ f, op = Op.closeForReading f) → P s1)
    (h : ReachableWhile guard L m) : ∀ j t, m.slotAt j = some t → P t := by
  induction h with
  | fresh =>
    intro j t ht
    rw [create_slot ht]
    exact h0
  | step op _ hg hrun ih =>
    obtain ⟨i, s, s1, c1, hi, hs, e, st⟩ := run_cases hrun
    subst e
    exact forall_slots_put s1 c1 hs ih (hstep _ op i s s1 c1 hg hi hs (ih i s hs) st)

theorem reachableWhile_by {guard : Shared → Op → Bool} {allowed : Op → Bool} {L : Int}
    {m : Shared} (hga : ∀ m op, guard m op = true → allowed op = true)
    (h : ReachableWhile guard L m) : ReachableBy allowed L m := by
  induction h with
  | fresh => exact ReachableBy.fresh
  | step op _ hg hrun ih => exact ReachableBy.step op ih (hga _ op hg) hrun

theorem countP_set (p : Slot → Bool) (l : List Slot) :
    ∀ (i : Nat) (s t : Slot), l[i]? = some s →
      ((l.set i t).countP p : Int) =
        l.countP p - (if p s then 1 else 0) + (if p t then 1 else 0) := by
  induction l with
  | nil => intro i s t h; simp at h
  | cons a as ih =>
    intro i s t h
    cases i with
    | zero =>
      simp only [List.getElem?_cons_zero, Option.some.injEq] at h
      subst h
      simp only [List.set_cons_zero, List.countP_cons]
      push_cast
      by_cases ha : p a = true <;> by_cases ht : p t = true <;> simp [ha, ht]
    | succ k =>
      simp only [List.getElem?_cons_succ] at h
      simp only [List.set_cons_succ, List.countP_cons]
      push_cast
      rw [ih k s t h]
      ring

theorem occupiedCount_put {m : Shared} {i : Nat} {s : Slot} (t : Slot) (c : Int)
    (h : m.slotAt i = some s) :
    (occupiedCount (m.put i t c) : Int) =
      occupiedCount m - (if occupied s then 1 else 0) + (if occupied t then 1 else 0) :=
  countP_set occupied m.slots i s t h

theorem step_count {op : Op} {s s1 : Slot} {c c1 : Int}
    (h : SlotStep op s c s1 c1 ∨ CloseStep s c s1 c1) :
    c1 = c - (if occupied s then 1 else 0) + (if occupied s1 then 1 else 0) := by
  rcases h with h | h
  · cases h with
    | same => split <;> ring
    | hold ho hs => simp [occupied, hs]
    | mark hs hr => simp [occupied, hs]
    | reclaim hs hr => rcases hs with hs | hs <;> simp [occupied, hs]
    | claim k f ho hs => simp [occupied, hs]
    | reclaimClaim k f ho hs hr => rcases hs with hs | hs <;> simp [occupied, hs]
    | commit hs => simp [occupied, hs]
    | store b hs => simp [occupied, hs]
  · cases h with
    | release hr hk =>
      by_cases ho : occupied s = true
      · have : occupied { s with readLevel := s.readLevel - 1 } = true := ho
        simp [ho, this]
      · have : ¬ occupied { s with readLevel := s.readLevel - 1 } = true := ho
        simp [ho, this]
    | releaseReclaim hs hr => simp [occupied, hs, zeroSlot]

theorem reachable_count {allowed : Op → Bool} {L : Int} {m : Shared}
    (h : ReachableBy allowed L m) : m.count = (occupiedCount m : Int) := by
  induction h with
  | fresh =>
    simp [Shared.create, occupiedCount, List.countP_replicate, occupied, zeroSlot]
  | @step m0 _ op _ _ hrun ih =>
    obtain ⟨i, s, s1, c1, _, hs, e, st⟩ := run_cases hrun
    subst e
    have st1 : SlotStep op s m0.count s1 c1 ∨ CloseStep s m0.count s1 c1 := by
      rcases st with st | st
      · exact Or.inl st.1
      · exact Or.inr st.1
    rw [occupiedCount_put s1 c1 hs, Shared.put_count, step_count st1, ih]

/-- In every region the calls reach, every `readLevel` is a value of the 32-bit
signed word, and a slot that is `Empty` or `Writing` has `readLevel ≤ 0`: the
increment of `closeForWriting` cannot wrap. -/
theorem reachable_levels {allowed : Op → Bool} {L : Int} {m : Shared}
    (h : ReachableBy allowed L m) :
    ∀ j t, m.slotAt j = some t →
      (-2147483648 ≤ t.readLevel ∧ t.readLevel ≤ 2147483647) ∧
      (t.state = SlotState.Empty ∨ t.state = SlotState.Writing → t.readLevel ≤ 0) := by
  refine reachable_slots (P := fun t =>
    (-2147483648 ≤ t.readLevel ∧ t.readLevel ≤ 2147483647) ∧
    (t.state = SlotState.Empty ∨ t.state = SlotState.Writing → t.readLevel ≤ 0))
    (by simp [zeroSlot]) ?_ h
  intro op s c s1 c1 _ hP st
  obtain ⟨⟨h0, h1⟩, h2⟩ := hP
  rcases st with st | st
  · cases st with
    | same => exact ⟨⟨h0, h1⟩, h2⟩
    | hold ho hs => exact ⟨incr32_range h0 h1, fun hc => by simp [hs] at hc⟩
    | mark hs hr => exact ⟨⟨h0, h1⟩, fun hc => by simp at hc⟩
    | reclaim hs hr => exact ⟨⟨h0, h1⟩, fun _ => hr⟩
    | claim k f ho hs => exact ⟨⟨h0, h1⟩, fun _ => h2 (Or.inl hs)⟩
    | reclaimClaim k f ho hs hr => exact ⟨⟨h0, h1⟩, fun _ => hr⟩
    | commit hs =>
      have := h2 (Or.inr hs)
      refine ⟨⟨?_, ?_⟩, fun hc => by simp at hc⟩
      · show -2147483648 ≤ s.readLevel + 1
        omega
      · show s.readLevel + 1 ≤ 2147483647
        omega
    | store b hs => exact ⟨⟨h0, h1⟩, fun _ => h2 (Or.inr hs)⟩
  · cases st with
    | release hr hk =>
      refine ⟨⟨?_, ?_⟩, fun hc => ?_⟩
      · show -2147483648 ≤ s.readLevel - 1
        omega
      · show s.readLevel - 1 ≤ 2147483647
        omega
      · have := h2 hc
        omega
    | releaseReclaim hs hr => simp [zeroSlot]

theorem slotAt_of_valid_size {m : Shared} {pos : Int}
    (hlen : m.slots.length = m.limit.toNat) (hv : valid m pos = true) :
    ∃ s, m.slotAt pos.toNat = some s := by
  simp only [valid, entryLimit, Bool.and_eq_true, decide_eq_true_eq] at hv
  have hlt : pos.toNat < m.slots.length := by rw [hlen]; omega
  exact ⟨m.slots[pos.toNat], by simp [Shared.slotAt, List.getElem?_eq_getElem hlt]⟩

theorem isNotClose_ne {op : Op} (h : Op.isNotClose op = true) :
    ∀ f, op ≠ Op.closeForReading f := by
  intro f hEq
  subst hEq
  simp [Op.isNotClose] at h

theorem reachable_public {L : Int} {m : Shared} (h : ReachableBy Op.isNotClose L m) :
    ReachableBy Op.isPublic L m := by
  induction h with
  | fresh => exact ReachableBy.fresh
  | step op _ hal hrun ih =>
    refine ReachableBy.step op ih ?_ hrun
    cases op <;> simp_all [Op.isPublic, Op.isNotClose]

theorem reach_exUsable_of {allowed : Op → Bool}
    (h1 : allowed (Op.openForWriting exKeyA 0) = true)
    (h2 : allowed (Op.store 1 exBasics) = true)
    (h3 : allowed (Op.closeForWriting 1) = true) : ReachableBy allowed 4 exUsable := by
  have r1 : ReachableBy allowed 4
      ((Shared.create 4).put 1 ⟨SlotState.Writing, 0, exKeyA, zeroBasics⟩ 0) :=
    ReachableBy.step (Op.openForWriting exKeyA 0) ReachableBy.fresh h1 (by decide)
  have r2 : ReachableBy allowed 4
      ((Shared.create 4).put 1 ⟨SlotState.Writing, 0, exKeyA, exBasics⟩ 0) :=
    ReachableBy.step (Op.store 1 exBasics) r1 h2 (by decide)
  exact ReachableBy.step (Op.closeForWriting 1) r2 h3 (by decide)

theorem reach_exUsable : ReachableBy Op.isNotClose 4 exUsable :=
  reach_exUsable_of (by decide) (by decide) (by decide)

theorem reachWhile_exUsable : ReachableWhile notCloseNoWrap 4 exUsable := by
  have r1 : ReachableWhile notCloseNoWrap 4
      ((Shared.create 4).put 1 ⟨SlotState.Writing, 0, exKeyA, zeroBasics⟩ 0) :=
    ReachableWhile.step (Op.openForWriting exKeyA 0) ReachableWhile.fresh (by decide)
      (by decide)
  have r2 : ReachableWhile notCloseNoWrap 4
      ((Shared.create 4).put 1 ⟨SlotState.Writing, 0, exKeyA, exBasics⟩ 0) :=
    ReachableWhile.step (Op.store 1 exBasics) r1 (by decide) (by decide)
  exact ReachableWhile.step (Op.closeForWriting 1) r2 (by decide) (by decide)

theorem notCloseNoWrap_public (m : Shared) (op : Op) (h : notCloseNoWrap m op = true) :
    publicNoWrap m op = true := by
  simp only [notCloseNoWrap, publicNoWrap, Bool.and_eq_true] at h ⊢
  refine ⟨?_, h.2⟩
  have := h.1
  cases op <;> simp_all [Op.isPublic, Op.isNotClose]

theorem reachWhile_public {L : Int} {m : Shared} (h : ReachableWhile notCloseNoWrap L m) :
    ReachableWhile publicNoWrap L m := by
  induction h with
  | fresh => exact ReachableWhile.fresh
  | step op _ hg hrun ih => exact ReachableWhile.step op ih (notCloseNoWrap_public _ op hg) hrun

/-- Slot 1 of `exUsable` after `n` further read opens, for `n` up to
2147483646, reached without a wrap. -/
theorem reach_held (n : Nat) (hn : n ≤ 2147483646) :
    ReachableWhile notCloseNoWrap 4
      (exUsable.put 1 ⟨SlotState.Usable, 1 + (n : Int), exKeyA, exBasics⟩ 1) := by
  induction n with
  | zero =>
    have e : exUsable.put 1 ⟨SlotState.Usable, 1 + ((0 : Nat) : Int), exKeyA, exBasics⟩ 1
        = exUsable := by decide
    rw [e]
    exact reachWhile_exUsable
  | succ k ih =>
    have hk := ih (by omega)
    have hs0 : exUsable.slotAt 1 = some ⟨SlotState.Usable, 1, exKeyA, exBasics⟩ := by
      decide
    have hs := Shared.slotAt_put_self
      (⟨SlotState.Usable, 1 + (k : Int), exKeyA, exBasics⟩ : Slot) 1 hs0
    have hv : valid (exUsable.put 1 ⟨SlotState.Usable, 1 + (k : Int), exKeyA, exBasics⟩ 1)
        1 = true := by
      rw [valid_put]
      decide
    have hne : ¬ (1 + (k : Int) = 2147483647) := by omega
    refine ReachableWhile.step (Op.openForReadingAt 1) hk ?_ ?_
    · simp [notCloseNoWrap, Op.isNotClose, Op.wraps, Op.isReadOpen, Op.slot, holdsFull, hs,
        hne]
    · have e := openForReadingAt_of_usable hv hs rfl
      simp only [Op.run, e, Option.map_some', Shared.put_put, Shared.put_count]
      have e2 : incr32 (1 + (k : Int)) = 1 + ((k + 1 : Nat) : Int) := by
        rw [incr32_of_lt (by omega) (by omega)]
        push_cast
        ring
      rw [e2]
      rfl

theorem exWrapped_eq :
    exUsable.put 1 ⟨SlotState.Usable, -2147483648, exKeyA, exBasics⟩ 1 = exWrapped := by
  decide

/-- The region `exWrapped` is reached from a fresh map by `openForWriting`, the
store, `closeForWriting` and 2147483647 calls of `openForReadingAt(1)`. -/
theorem reach_exWrapped : ReachableBy Op.isNotClose 4 exWrapped := by
  have hk : ReachableBy Op.isNotClose 4
      (exUsable.put 1 ⟨SlotState.Usable, 1 + ((2147483646 : Nat) : Int), exKeyA, exBasics⟩ 1) :=
    reachableWhile_by (fun m op hg => by
      simp only [notCloseNoWrap, Bool.and_eq_true] at hg
      exact hg.1) (reach_held 2147483646 (le_refl _))
  have hs0 : exUsable.slotAt 1 = some ⟨SlotState.Usable, 1, exKeyA, exBasics⟩ := by
    decide
  have hs := Shared.slotAt_put_self
    (⟨SlotState.Usable, 1 + ((2147483646 : Nat) : Int), exKeyA, exBasics⟩ : Slot) 1 hs0
  have hv : valid (exUsable.put 1
      ⟨SlotState.Usable, 1 + ((2147483646 : Nat) : Int), exKeyA, exBasics⟩ 1) 1 = true := by
    rw [valid_put]
    decide
  refine ReachableBy.step (Op.openForReadingAt 1) hk (by decide) ?_
  have e := openForReadingAt_of_usable hv hs rfl
  simp only [Op.run, e, Option.map_some', Shared.put_put, Shared.put_count]
  have e2 : incr32 (1 + ((2147483646 : Nat) : Int)) = -2147483648 := by decide
  rw [e2]
  exact congrArg some exWrapped_eq

/-- C17 fails as stated: after `openForWriting` of the all-zero key on a fresh
map of four slots, slot 0 has an all-zero key and all-zero metadata while its
state is `Writing`, not `Empty`. -/
theorem C17_counterexample :
    ReachableBy Op.isPublic 4
      ((Shared.create 4).put 0 ⟨SlotState.Writing, 0, zeroKey, zeroBasics⟩ 0) ∧
    (Op.openForWriting zeroKey 0).run (Shared.create 4) =
      some ((Shared.create 4).put 0 ⟨SlotState.Writing, 0, zeroKey, zeroBasics⟩ 0) ∧
    ((Shared.create 4).put 0 ⟨SlotState.Writing, 0, zeroKey, zeroBasics⟩ 0).slotAt 0 =
      some ⟨SlotState.Writing, 0, zeroKey, zeroBasics⟩ :=
  ⟨ReachableBy.step (Op.openForWriting zeroKey 0) ReachableBy.fresh (by decide) (by decide),
    by decide, by decide⟩

theorem empty_is_zero {allowed : Op → Bool} {L : Int} {m : Shared}
    (h : ReachableBy allowed L m) :
    ∀ j t, m.slotAt j = some t → t.state = SlotState.Empty →
      t.key = zeroKey ∧ t.seBasics = zeroBasics := by
  refine reachable_slots (P := fun t => t.state = SlotState.Empty →
    t.key = zeroKey ∧ t.seBasics = zeroBasics) (fun _ => ⟨rfl, rfl⟩) ?_ h
  intro op s c s1 c1 _ hP st
  rcases st with st | st
  · cases st with
    | same => exact hP
    | hold ho hs => intro he; simp [hs] at he
    | mark hs hr => intro he; simp at he
    | reclaim hs hr => intro _; exact ⟨rfl, rfl⟩
    | claim k f ho hs => intro he; simp at he
    | reclaimClaim k f ho hs hr => intro he; simp at he
    | commit hs => intro he; simp at he
    | store b hs => intro he; simp [hs] at he
  · cases st with
    | release hr hk => exact hP
    | releaseReclaim hs hr => intro _; exact ⟨rfl, rfl⟩

theorem keyed_of_nonempty {L : Int} {m : Shared}
    (h : ReachableBy Op.isPublicNonzeroKey L m) :
    ∀ j t, m.slotAt j = some t → t.state ≠ SlotState.Empty → t.key ≠ zeroKey := by
  refine reachable_slots (P := fun t => t.state ≠ SlotState.Empty → t.key ≠ zeroKey)
    (fun hc => absurd rfl hc) ?_ h
  intro op s c s1 c1 hal hn st
  rcases st with st | st
  · cases st with
    | same => exact hn
    | hold ho hs => exact fun _ => hn (by simp [hs])
    | mark hs hr => exact fun _ => hn (by simp [hs])
    | reclaim hs hr => exact fun hc => absurd rfl hc
    | claim k f ho hs =>
      subst ho
      intro _
      simpa [Op.isPublicNonzeroKey] using hal
    | reclaimClaim k f ho hs hr =>
      subst ho
      intro _
      simpa [Op.isPublicNonzeroKey] using hal
    | commit hs => exact fun _ => hn (by simp [hs])
    | store b hs => exact fun _ => hn (by simp [hs])
  · cases st with
    | release hr hk => exact hn
    | releaseReclaim hs hr => exact fun hc => absurd rfl hc

/-- C17 (as amended). In every region reachable from a freshly created map by
the public operations, every slot whose state is `Empty` has an all-zero key
and all-zero metadata; and when `openForWriting` is never called with the
all-zero key, the key and the metadata of a slot are both all-zero exactly
when the slot's state is `Empty`. -/
theorem C17_zero_iff_empty (L : Int) (m : Shared) :
    (ReachableBy Op.isPublic L m →
      ∀ j t, m.slotAt j = some t → t.state = SlotState.Empty →
        t.key = zeroKey ∧ t.seBasics = zeroBasics) ∧
    (ReachableBy Op.isPublicNonzeroKey L m →
      ∀ j t, m.slotAt j = some t →
        ((t.key = zeroKey ∧ t.seBasics = zeroBasics) ↔ t.state = SlotState.Empty)) := by
  refine ⟨fun h => empty_is_zero h, fun h j t ht => ?_⟩
  constructor
  · intro hk
    by_contra hne
    exact keyed_of_nonempty h j t ht hne hk.1
  · exact empty_is_zero h j t ht

theorem reach_exReclaimed : ReachableBy Op.isPublicNonzeroKey 4 exReclaimed := by
  have r0 : ReachableBy Op.isPublicNonzeroKey 4 exUsable :=
    reach_exUsable_of (by decide) (by decide) (by decide)
  have r1 : ReachableBy Op.isPublicNonzeroKey 4
      (exUsable.put 1 ⟨SlotState.WaitingToBeFreed, 1, exKeyA, exBasics⟩ 1) :=
    ReachableBy.step (Op.free 1) r0 (by decide) (by decide)
  exact ReachableBy.step (Op.closeForReading 1) r1 (by decide) (by decide)

/-- C17 (as amended) at two concrete inputs: slot 1 of `exUsable`, written and
committed with a key that is not zero, and slot 1 of `exReclaimed`, the same
slot after `free(1)` and `closeForReading(1)` have reclaimed and zeroed it. -/
theorem C17_witness :
    exUsable.slotAt 1 = some ⟨SlotState.Usable, 1, exKeyA, exBasics⟩ ∧
    ((exKeyA = zeroKey ∧ exBasics = zeroBasics) ↔ SlotState.Usable = SlotState.Empty) ∧
    (Op.free 1).run exUsable =
      some (exUsable.put 1 ⟨SlotState.WaitingToBeFreed, 1, exKeyA, exBasics⟩ 1) ∧
    (Op.closeForReading 1).run
      (exUsable.put 1 ⟨SlotState.WaitingToBeFreed, 1, exKeyA, exBasics⟩ 1) =
      some exReclaimed ∧
    exReclaimed.slotAt 1 = some zeroSlot ∧
    ((zeroSlot.key = zeroKey ∧ zeroSlot.seBasics = zeroBasics) ↔
      zeroSlot.state = SlotState.Empty) :=
  ⟨by decide,
    (C17_zero_iff_empty 4 exUsable).2
      (reach_exUsable_of (by decide) (by decide) (by decide)) 1
      ⟨SlotState.Usable, 1, exKeyA, exBasics⟩ (by decide),
    by decide, by decide, by decide,
    (C17_zero_iff_empty 4 exReclaimed).2 reach_exReclaimed 1 zeroSlot (by decide)⟩

/-- C18. Entry count: in every region reachable from a freshly created map of
limit `L ≥ 0` by public operations that do not abort, the header count is the
number of slots whose state is `Usable`, `WaitingToBeFreed` or `Freeing`, and
`0 ≤ entryCount() ≤ entryLimit()`. -/
theorem C18_count_is_occupied (L : Int) (m : Shared) (h0 : 0 ≤ L)
    (h : ReachableBy Op.isPublic L m) :
    entryCount m = (occupiedCount m : Int) ∧ 0 ≤ entryCount m ∧
      entryCount m ≤ entryLimit m := by
  have hc := reachable_count h
  obtain ⟨hl, hn⟩ := reachable_size h
  have hle : occupiedCount m ≤ m.slots.length := List.countP_le_length _
  simp only [entryCount, entryLimit]
  refine ⟨hc, by rw [hc]; exact Int.natCast_nonneg _, ?_⟩
  rw [hc, hl]
  omega

/-- C18 at a concrete input: `exUsable`, with one committed entry. -/
theorem C18_witness :
    ReachableBy Op.isPublic 4 exUsable ∧
    entryCount exUsable = (occupiedCount exUsable : Int) ∧ 0 ≤ entryCount exUsable ∧
      entryCount exUsable ≤ entryLimit exUsable :=
  ⟨reachable_public reach_exUsable,
    C18_count_is_occupied 4 exUsable (by decide) (reachable_public reach_exUsable)⟩

theorem hold_below {m : Shared} {op : Op} {i : Nat} {s : Slot}
    (hw : op.wraps m = false) (ho : op.isReadOpen = true) (hi : op.slot m = some i)
    (hs : m.slotAt i = some s) (hu : s.state = SlotState.Usable) :
    s.readLevel ≠ 2147483647 := by
  intro hEq
  simp [Op.wraps, ho, hi, holdsFull, hs, hu, hEq] at hw

theorem levels_no_wrap {guard : Shared → Op → Bool} {L : Int} {m : Shared}
    (hg : ∀ m op, guard m op = true → op.wraps m = false)
    (h : ReachableWhile guard L m) :
    ∀ j t, m.slotAt j = some t →
      (0 ≤ t.readLevel ∧ t.readLevel ≤ 2147483647) ∧
      (t.state = SlotState.Empty ∨ t.state = SlotState.Writing → t.readLevel ≤ 0) := by
  refine reachableWhile_slots (P := fun t =>
    (0 ≤ t.readLevel ∧ t.readLevel ≤ 2147483647) ∧
    (t.state = SlotState.Empty ∨ t.state = SlotState.Writing → t.readLevel ≤ 0))
    (by simp [zeroSlot]) ?_ h
  intro m op i s s1 c1 hgo hi hs hP st
  obtain ⟨⟨h0, h1⟩, h2⟩ := hP
  rcases st with ⟨st, _⟩ | ⟨st, _⟩
  · cases st with
    | same => exact ⟨⟨h0, h1⟩, h2⟩
    | hold ho hu =>
      have hne := hold_below (hg m op hgo) ho hi hs hu
      have e : incr32 s.readLevel = s.readLevel + 1 := incr32_of_lt (by omega) (by omega)
      refine ⟨⟨?_, ?_⟩, fun hc => by simp [hu] at hc⟩
      · show 0 ≤ incr32 s.readLevel
        omega
      · show incr32 s.readLevel ≤ 2147483647
        omega
    | mark hu hr => exact ⟨⟨h0, h1⟩, fun hc => by simp at hc⟩
    | reclaim hu hr => exact ⟨⟨h0, h1⟩, fun _ => hr⟩
    | claim k f ho hu => exact ⟨⟨h0, h1⟩, fun _ => h2 (Or.inl hu)⟩
    | reclaimClaim k f ho hu hr => exact ⟨⟨h0, h1⟩, fun _ => hr⟩
    | commit hu =>
      have := h2 (Or.inr hu)
      refine ⟨⟨?_, ?_⟩, fun hc => by simp at hc⟩
      · show 0 ≤ s.readLevel + 1
        omega
      · show s.readLevel + 1 ≤ 2147483647
        omega
    | store b hu => exact ⟨⟨h0, h1⟩, fun _ => h2 (Or.inr hu)⟩
  · cases st with
    | release hr hk =>
      refine ⟨⟨?_, ?_⟩, fun hc => ?_⟩
      · show 0 ≤ s.readLevel - 1
        omega
      · show s.readLevel - 1 ≤ 2147483647
        omega
      · have := h2 hc
        omega
    | releaseReclaim hu hr => simp [zeroSlot]

theorem publicNoWrap_wraps (m : Shared) (op : Op) (h : publicNoWrap m op = true) :
    op.wraps m = false := by
  simp only [publicNoWrap, Bool.and_eq_true, Bool.not_eq_true'] at h
  exact h.2

theorem notCloseNoWrap_wraps (m : Shared) (op : Op) (h : notCloseNoWrap m op = true) :
    op.wraps m = false := by
  simp only [notCloseNoWrap, Bool.and_eq_true, Bool.not_eq_true'] at h
  exact h.2

/-- C19 fails as stated: `exWrapped` is reached from a fresh map of four slots
by public calls (a write, its commit and 2147483647 calls of
`openForReadingAt(1)`); its slot 1 has `readLevel` -2147483648, and
`closeForReading(1)`, on a valid id and a `readLevel` that is not 0, aborts. -/
theorem C19_counterexample :
    ReachableBy Op.isPublic 4 exWrapped ∧
    exWrapped.slotAt 1 = some ⟨SlotState.Usable, -2147483648, exKeyA, exBasics⟩ ∧
    valid exWrapped 1 = true ∧ closeForReading exWrapped 1 = none :=
  ⟨reachable_public reach_exWrapped, by decide, by decide, by decide⟩

/-- C19 (as amended). In every region reached from a freshly created map by
public operations that do not abort, `closeForReading(id)` aborts exactly when
`id` is not valid or the slot's `readLevel` is at most 0, and otherwise it is
`freeIfNeeded` run on the region whose slot has `readLevel` lowered by one, and
the slot's `readLevel` ends exactly one lower.  When in addition no operation
wraps the counter (no read open of a `Usable` slot whose `readLevel` is
2147483647), every slot's `readLevel` is at least 0, and `closeForReading(id)`
aborts exactly when `id` is not valid or the slot's `readLevel` is 0. -/
theorem C19_readLevel_nonneg_no_wrap (L : Int) (m : Shared) :
    (ReachableBy Op.isPublic L m →
      ∀ id,
        (closeForReading m id = none ↔
          (valid m id = false ∨ ∃ s, m.slotAt id.toNat = some s ∧ s.readLevel ≤ 0)) ∧
        (∀ s, valid m id = true → m.slotAt id.toNat = some s → 0 < s.readLevel →
          closeForReading m id =
            freeIfNeeded (m.put id.toNat { s with readLevel := s.readLevel - 1 } m.count)
              id.toNat ∧
          ∃ m1 s1, closeForReading m id = some m1 ∧ m1.slotAt id.toNat = some s1 ∧
            s1.readLevel = s.readLevel - 1)) ∧
    (ReachableWhile publicNoWrap L m →
      (∀ j t, m.slotAt j = some t → 0 ≤ t.readLevel) ∧
      ∀ id,
        (closeForReading m id = none ↔
          (valid m id = false ∨ ∃ s, m.slotAt id.toNat = some s ∧ s.readLevel = 0))) := by
  have part1 : ReachableBy Op.isPublic L m →
      ∀ id,
        (closeForReading m id = none ↔
          (valid m id = false ∨ ∃ s, m.slotAt id.toNat = some s ∧ s.readLevel ≤ 0)) ∧
        (∀ s, valid m id = true → m.slotAt id.toNat = some s → 0 < s.readLevel →
          closeForReading m id =
            freeIfNeeded (m.put id.toNat { s with readLevel := s.readLevel - 1 } m.count)
              id.toNat ∧
          ∃ m1 s1, closeForReading m id = some m1 ∧ m1.slotAt id.toNat = some s1 ∧
            s1.readLevel = s.readLevel - 1) := by
    intro h id
    obtain ⟨hl, hn⟩ := reachable_size h
    refine ⟨?_, ?_⟩
    · constructor
      · intro hnone
        by_cases hv : valid m id = true
        · right
          obtain ⟨s, hs⟩ := slotAt_of_valid_size (by rw [hn, hl]) hv
          refine ⟨s, hs, ?_⟩
          by_contra hr
          obtain ⟨s1, c1, e, _⟩ := closeForReading_shape hv hs (by omega)
          rw [e] at hnone
          cases hnone
        · left
          simpa using hv
      · rintro (hv | ⟨s, hs, hr⟩)
        · simp [closeForReading, hv]
        · have hr2 : ¬ 0 < s.readLevel := by omega
          by_cases hv : valid m id = true
          · simp [closeForReading, hv, hs, hr2]
          · simp [closeForReading, hv]
    · intro s hv hs hr
      refine ⟨closeForReading_of_held hv hs hr, ?_⟩
      obtain ⟨s1, c1, e, st⟩ := closeForReading_shape hv hs hr
      refine ⟨_, s1, e, Shared.slotAt_put_self _ _ hs, ?_⟩
      cases st with
      | release _ _ => rfl
      | releaseReclaim hw h1 => rw [h1]; rfl
  refine ⟨part1, fun h => ?_⟩
  have hnn : ∀ j t, m.slotAt j = some t → 0 ≤ t.readLevel :=
    fun j t ht => (levels_no_wrap publicNoWrap_wraps h j t ht).1.1
  have hby : ReachableBy Op.isPublic L m :=
    reachableWhile_by (fun m op hg => by
      simp only [publicNoWrap, Bool.and_eq_true] at hg
      exact hg.1) h
  refine ⟨hnn, fun id => ?_⟩
  rw [(part1 hby id).1]
  constructor
  · rintro (hv | ⟨s, hs, hr⟩)
    · exact Or.inl hv
    · exact Or.inr ⟨s, hs, by have := hnn _ s hs; omega⟩
  · rintro (hv | ⟨s, hs, hr⟩)
    · exact Or.inl hv
    · exact Or.inr ⟨s, hs, by omega⟩

/-- C19 (as amended) at concrete inputs: `closeForReading(1)` on `exUsable`,
whose slot 1 has `readLevel` 1, lowers it to 0; a second `closeForReading(1)`
then aborts. -/
theorem C19_witness :
    ReachableWhile publicNoWrap 4 exUsable ∧
    exUsable.slotAt 1 = some ⟨SlotState.Usable, 1, exKeyA, exBasics⟩ ∧
    (∃ m1 s1, closeForReading exUsable 1 = some m1 ∧ m1.slotAt 1 = some s1 ∧
      s1.readLevel = 1 - 1) ∧
    (closeForReading exUsable 7 = none ↔
      (valid exUsable 7 = false ∨ ∃ s, exUsable.slotAt 7 = some s ∧ s.readLevel = 0)) :=
  ⟨reachWhile_public reachWhile_exUsable, by decide,
    (((C19_readLevel_nonneg_no_wrap 4 exUsable).1 (reachable_public reach_exUsable) 1).2
      ⟨SlotState.Usable, 1, exKeyA, exBasics⟩ (by decide) (by decide) (by decide)).2,
    ((C19_readLevel_nonneg_no_wrap 4 exUsable).2
      (reachWhile_public reachWhile_exUsable)).2 7⟩

/-- C20 fails as stated: `exWrapped` is reached from a fresh map of four slots
without any `closeForReading` (a write, its commit and 2147483647 calls of
`openForReadingAt(1)`); its `Usable` slot 1 has `readLevel` -2147483648, below
1, and `free(1)` then reclaims the slot: it is `Empty` and `entryCount()` has
gone from 1 to 0. -/
theorem C20_counterexample :
    ReachableBy Op.isNotClose 4 exWrapped ∧
    exWrapped.slotAt 1 = some ⟨SlotState.Usable, -2147483648, exKeyA, exBasics⟩ ∧
    (Op.free 1).run exWrapped =
      some (exWrapped.put 1 ⟨SlotState.Empty, -2147483648, zeroKey, zeroBasics⟩ 0) ∧
    entryCount exWrapped = 1 ∧
    entryCount (exWrapped.put 1 ⟨SlotState.Empty, -2147483648, zeroKey, zeroBasics⟩ 0)
      = 0 :=
  ⟨reach_exWrapped, by decide, by decide, by decide, by decide⟩

theorem held_no_wrap {L : Int} {m : Shared} (h : ReachableWhile notCloseNoWrap L m) :
    ∀ j t, m.slotAt j = some t →
      (0 ≤ t.readLevel ∧ t.readLevel ≤ 2147483647) ∧
      (t.state = SlotState.Empty ∨ t.state = SlotState.Writing → t.readLevel ≤ 0) ∧
      (t.state = SlotState.Usable ∨ t.state = SlotState.WaitingToBeFreed →
        1 ≤ t.readLevel) := by
  refine reachableWhile_slots (P := fun t =>
    (0 ≤ t.readLevel ∧ t.readLevel ≤ 2147483647) ∧
    (t.state = SlotState.Empty ∨ t.state = SlotState.Writing → t.readLevel ≤ 0) ∧
    (t.state = SlotState.Usable ∨ t.state = SlotState.WaitingToBeFreed →
      1 ≤ t.readLevel))
    (by simp [zeroSlot]) ?_ h
  intro m op i s s1 c1 hgo hi hs hP st
  obtain ⟨⟨h0, h1⟩, h2, h3⟩ := hP
  rcases st with ⟨st, _⟩ | ⟨_, f, hf⟩
  · cases st with
    | same => exact ⟨⟨h0, h1⟩, h2, h3⟩
    | hold ho hu =>
      have hne := hold_below (notCloseNoWrap_wraps m op hgo) ho hi hs hu
      have e : incr32 s.readLevel = s.readLevel + 1 := incr32_of_lt (by omega) (by omega)
      refine ⟨⟨?_, ?_⟩, fun hc => by simp [hu] at hc, fun _ => ?_⟩
      · show 0 ≤ incr32 s.readLevel
        omega
      · show incr32 s.readLevel ≤ 2147483647
        omega
      · show 1 ≤ incr32 s.readLevel
        omega
    | mark hu hr =>
      exact ⟨⟨h0, h1⟩, fun hc => by simp at hc, fun _ => by show 1 ≤ s.readLevel; omega⟩
    | reclaim hu hr => exact ⟨⟨h0, h1⟩, fun _ => hr, fun hc => by simp at hc⟩
    | claim k f ho hu => exact ⟨⟨h0, h1⟩, fun _ => h2 (Or.inl hu), fun hc => by simp at hc⟩
    | reclaimClaim k f ho hu hr => exact ⟨⟨h0, h1⟩, fun _ => hr, fun hc => by simp at hc⟩
    | commit hu =>
      have hle := h2 (Or.inr hu)
      refine ⟨⟨?_, ?_⟩, fun hc => by simp at hc, fun _ => ?_⟩
      · show 0 ≤ s.readLevel + 1
        omega
      · show s.readLevel + 1 ≤ 2147483647
        omega
      · show 1 ≤ s.readLevel + 1
        omega
    | store b hu =>
      exact ⟨⟨h0, h1⟩, fun _ => h2 (Or.inr hu), fun hc => by simp [hu] at hc⟩
  · subst hf
    simp [notCloseNoWrap, Op.isNotClose] at hgo

/-- C20 (as amended). The hold taken at commit keeps a slot alive while the
counter does not wrap: in every region reached from a freshly created map by
public calls other than `closeForReading`, none of them a read open of a
`Usable` slot whose `readLevel` is 2147483647, every slot that is `Usable` or
`WaitingToBeFreed` has `readLevel ≥ 1`; so a further such call never lowers
`entryCount()` and leaves every `Usable` or `WaitingToBeFreed` slot `Usable`
or `WaitingToBeFreed`, never `Empty`. -/
theorem C20_commit_hold_no_wrap (L : Int) (m : Shared)
    (h : ReachableWhile notCloseNoWrap L m) :
    (∀ j t, m.slotAt j = some t →
      t.state = SlotState.Usable ∨ t.state = SlotState.WaitingToBeFreed →
      1 ≤ t.readLevel) ∧
    ∀ op m1, notCloseNoWrap m op = true → op.run m = some m1 →
      entryCount m ≤ entryCount m1 ∧
      ∀ j t, m.slotAt j = some t →
        t.state = SlotState.Usable ∨ t.state = SlotState.WaitingToBeFreed →
        ∃ t1, m1.slotAt j = some t1 ∧
          (t1.state = SlotState.Usable ∨ t1.state = SlotState.WaitingToBeFreed) := by
  have hheld := held_no_wrap h
  refine ⟨fun j t ht hst => (hheld j t ht).2.2 hst, ?_⟩
  intro op m1 hal hrun
  have hnc : Op.isNotClose op = true := by
    simp only [notCloseNoWrap, Bool.and_eq_true] at hal
    exact hal.1
  obtain ⟨i, s, s1, c1, _, hs, e, st⟩ := run_shape hrun (isNotClose_ne hnc)
  subst e
  obtain ⟨⟨h0, _⟩, _, h1⟩ := hheld i s hs
  have key : m.count ≤ c1 ∧
      (s.state = SlotState.Usable ∨ s.state = SlotState.WaitingToBeFreed →
        s1.state = SlotState.Usable ∨ s1.state = SlotState.WaitingToBeFreed) := by
    cases st with
    | same => exact ⟨le_refl _, id⟩
    | hold ho hu => exact ⟨le_refl _, fun _ => Or.inl hu⟩
    | mark hu hr => exact ⟨le_refl _, fun _ => Or.inr rfl⟩
    | reclaim hu hr => have := h1 hu; omega
    | claim k f ho hu => exact ⟨le_refl _, fun hc => by simp [hu] at hc⟩
    | reclaimClaim k f ho hu hr => have := h1 hu; omega
    | commit hu => exact ⟨by omega, fun _ => Or.inl rfl⟩
    | store b hu => exact ⟨le_refl _, fun hc => by simp [hu] at hc⟩
  refine ⟨key.1, ?_⟩
  intro j t ht hst
  by_cases hj : j = i
  · subst hj
    rw [hs] at ht
    injection ht with ht
    subst ht
    exact ⟨s1, Shared.slotAt_put_self _ _ hs, key.2 hst⟩
  · exact ⟨t, by rw [Shared.slotAt_put_ne _ _ hj]; exact ht, hst⟩

/-- C20 (as amended) at a concrete input: `free(1)` on `exUsable` marks the
committed slot 1 and does not reclaim it. -/
theorem C20_witness :
    ReachableWhile notCloseNoWrap 4 exUsable ∧
    (Op.free 1).run exUsable =
      some (exUsable.put 1 ⟨SlotState.WaitingToBeFreed, 1, exKeyA, exBasics⟩ 1) ∧
    entryCount exUsable ≤
      entryCount (exUsable.put 1 ⟨SlotState.WaitingToBeFreed, 1, exKeyA, exBasics⟩ 1) :=
  ⟨reachWhile_exUsable, by decide,
    ((C20_commit_hold_no_wrap 4 exUsable reachWhile_exUsable).2 (Op.free 1) _ (by decide)
      (by decide)).1⟩
/-! ## The record of state updates -/

theorem freeIfNeededT_erase (m : Shared) (i : Nat) :
    (freeIfNeededT m i).map (fun r => r.1) = freeIfNeeded m i := by
  unfold freeIfNeededT freeIfNeeded
  cases m.slotAt i with
  | none => rfl
  | some s =>
    by_cases hs : s.state = SlotState.WaitingToBeFreed
    · by_cases hr : 0 < s.readLevel <;> simp [Slot.swap_if, hs, hr]
    · simp [Slot.swap_if, hs]

theorem openForReadingAtT_erase (m : Shared) (fileno : Int) :
    (openForReadingAtT m fileno).map (fun r => (r.1, r.2.1)) = openForReadingAt m fileno := by
  unfold openForReadingAtT openForReadingAt
  by_cases hv : valid m fileno = true
  · simp only [hv, if_true]
    cases m.slotAt fileno.toNat with
    | none => rfl
    | some s =>
      by_cases hs : s.state = SlotState.Usable
      · simp [hs]
      · simp only [hs, if_false]
        rw [← freeIfNeededT_erase]
        cases freeIfNeededT _ fileno.toNat <;> rfl
  · simp [hv]

theorem freeT_erase (m : Shared) (fileno : Int) :
    (freeT m fileno).map (fun r => (r.1, r.2.1)) = free m fileno := by
  unfold freeT free
  rw [← openForReadingAtT_erase]
  cases openForReadingAtT m fileno with
  | none => rfl
  | some q =>
    obtain ⟨p, m1, log⟩ := q
    cases p with
    | none => rfl
    | some p =>
      simp only [Option.map_some']
      cases m1.slotAt fileno.toNat with
      | none => rfl
      | some s =>
        simp only
        rw [← freeIfNeededT_erase]
        cases freeIfNeededT _ fileno.toNat <;> rfl

theorem openForWritingT_erase (m : Shared) (key : CacheKey) (fileno : Int) :
    (openForWritingT m key fileno).map (fun r => r.1) = openForWriting m key fileno := by
  unfold openForWritingT openForWriting
  cases slotIdx m key with
  | none => rfl
  | some idx =>
    simp only
    rw [← freeT_erase]
    cases freeT m idx with
    | none => rfl
    | some q =>
      obtain ⟨b, m1, log⟩ := q
      simp only [Option.map_some']
      cases m1.slotAt idx.toNat with
      | none => rfl
      | some s =>
        by_cases hs : s.state = SlotState.Empty <;> simp [Slot.swap_if, hs]

theorem closeForWritingT_erase (m : Shared) (fileno : Int) :
    (closeForWritingT m fileno).map (fun r => r.1) = closeForWriting m fileno := by
  unfold closeForWritingT closeForWriting
  by_cases hv : valid m fileno = true
  · simp only [hv, if_true]
    cases m.slotAt fileno.toNat with
    | none => rfl
    | some s =>
      by_cases hs : s.state = SlotState.Writing <;> simp [Slot.swap_if, hs]
  · simp [hv]

theorem openForReadingT_erase (m : Shared) (key : CacheKey) (fileno : Int) :
    (openForReadingT m key fileno).map (fun r => r.1) = openForReading m key fileno := by
  unfold openForReadingT openForReading
  cases slotIdx m key with
  | none => rfl
  | some idx =>
    simp only
    rw [← openForReadingAtT_erase]
    cases openForReadingAtT m idx with
    | none => rfl
    | some q =>
      obtain ⟨p, m1, log⟩ := q
      cases p with
      | none => rfl
      | some p =>
        simp only [Option.map_some']
        cases m1.slotAt idx.toNat with
        | none => rfl
        | some s => simp [Slot.checkKey]

theorem closeForReadingT_erase (m : Shared) (fileno : Int) :
    (closeForReadingT m fileno).map (fun r => r.1) = closeForReading m fileno := by
  unfold closeForReadingT closeForReading
  by_cases hv : valid m fileno = true
  · simp only [hv, if_true]
    cases m.slotAt fileno.toNat with
    | none => rfl
    | some s =>
      by_cases hr : 0 < s.readLevel
      · simp only [gt_iff_lt, hr, if_true]
        exact freeIfNeededT_erase _ _
      · simp [hr]
  · simp [hv]

theorem runT_erase (m : Shared) (op : Op) :
    (op.runT m).map (fun r => r.1) = op.run m := by
  cases op with
  | openForWriting key fileno =>
    simp only [Op.runT, Op.run, ← openForWritingT_erase, Option.map_map]
    rfl
  | store p b =>
    simp only [Op.runT, Option.map_map]
    cases Op.run m (Op.store p b) <;> rfl
  | closeForWriting fileno => exact closeForWritingT_erase m fileno
  | openForReading key fileno =>
    simp only [Op.runT, Op.run, ← openForReadingT_erase, Option.map_map]
    rfl
  | openForReadingAt fileno =>
    simp only [Op.runT, Op.run, ← openForReadingAtT_erase, Option.map_map]
    rfl
  | closeForReading fileno => exact closeForReadingT_erase m fileno
  | free fileno =>
    simp only [Op.runT, Op.run, ← freeT_erase, Option.map_map]
    rfl
  | freeIfNeeded i => exact freeIfNeededT_erase m i

theorem chainFrom_append {a b : SlotState} (l1 l2 : List (SlotState × SlotState)) :
    chainFrom a l1 = some b → chainFrom a (l1 ++ l2) = chainFrom b l2 := by
  induction l1 generalizing a with
  | nil =>
    intro h
    simp only [chainFrom, Option.some.injEq] at h
    subst h
    rfl
  | cons t rest ih =>
    obtain ⟨x, y⟩ := t
    intro h
    simp only [List.cons_append, chainFrom] at h ⊢
    by_cases hx : x = a
    · simp only [hx, if_true] at h ⊢
      exact ih h
    · simp [hx] at h

theorem TraceOK_refl (st : SlotState) : TraceOK st st [] := by
  refine ⟨by simp, rfl, ?_, ?_⟩ <;> intro h <;> simp [h]

theorem freeIfNeededT_shape {m : Shared} {i : Nat} {s : Slot} (h : m.slotAt i = some s) :
    ∃ s1 c1 log, freeIfNeededT m i = some (m.put i s1 c1, log) ∧
      TraceOK s.state s1.state log := by
  by_cases hs : s.state = SlotState.WaitingToBeFreed
  · by_cases hr : 0 < s.readLevel
    · refine ⟨s, m.count,
        [(SlotState.WaitingToBeFreed, SlotState.Freeing),
         (SlotState.Freeing, SlotState.WaitingToBeFreed)], ?_, ?_⟩
      · have e : ({ state := SlotState.WaitingToBeFreed, readLevel := s.readLevel,
                    key := s.key, seBasics := s.seBasics } : Slot) = s := by
          cases s; simp_all
        simp [freeIfNeededT, h, Slot.swap_if, hs, hr, e, swapLog, Shared.setSlot_eq_put]
      · rw [hs]
        exact ⟨by decide, by decide, by decide, by decide⟩
    · refine ⟨⟨SlotState.Empty, s.readLevel, zeroKey, zeroBasics⟩, m.count - 1,
        [(SlotState.WaitingToBeFreed, SlotState.Freeing),
         (SlotState.Freeing, SlotState.Empty)], ?_, ?_⟩
      · simp [freeIfNeededT, h, Slot.swap_if, hs, hr, swapLog, Shared.setSlot, Shared.put]
      · rw [hs]
        refine ⟨by decide, rfl, ?_, ?_⟩ <;> intro hc <;> cases hc
  · refine ⟨s, m.count, [], ?_, TraceOK_refl _⟩
    simp [freeIfNeededT, h, Slot.swap_if, hs, swapLog, Shared.put_self h]

theorem openForReadingAtT_shape {m : Shared} {fileno : Int} {s : Slot}
    (hv : valid m fileno = true) (h : m.slotAt fileno.toNat = some s) :
    ∃ p s1 c1 log, openForReadingAtT m fileno = some (p, m.put fileno.toNat s1 c1, log) ∧
      TraceOK s.state s1.state log := by
  by_cases hs : s.state = SlotState.Usable
  · refine ⟨some fileno.toNat, { s with readLevel := incr32 s.readLevel }, m.count, [], ?_,
      TraceOK_refl _⟩
    simp [openForReadingAtT, hv, h, hs, Shared.setSlot_eq_put]
  · obtain ⟨s1, c1, log, e, ok⟩ := freeIfNeededT_shape h
    refine ⟨none, s1, c1, log, ?_, ok⟩
    simp only [openForReadingAtT, hv, h, if_true, hs, if_false, Slot.incr_decr,
      Shared.setSlot_eq_put, Shared.put_self h, e]

theorem freeT_shape {m : Shared} {fileno : Int} {s : Slot}
    (hv : valid m fileno = true) (h : m.slotAt fileno.toNat = some s) :
    ∃ b s1 c1 log, freeT m fileno = some (b, m.put fileno.toNat s1 c1, log) ∧
      TraceOK s.state s1.state log := by
  by_cases hs : s.state = SlotState.Usable
  · have h1 := Shared.slotAt_put_self
      ({ s with state := SlotState.WaitingToBeFreed } : Slot) m.count h
    obtain ⟨s1, c1, log, e, ok⟩ := freeIfNeededT_shape h1
    refine ⟨true, s1, c1, (SlotState.Usable, SlotState.WaitingToBeFreed) :: log, ?_, ?_⟩
    · have eo : openForReadingAtT m fileno = some (some fileno.toNat,
          m.put fileno.toNat { s with readLevel := incr32 s.readLevel } m.count, []) := by
        simp [openForReadingAtT, hv, h, hs, Shared.setSlot_eq_put]
      simp only [freeT, eo, Shared.slotAt_put_self _ _ h, Slot.swap_if, hs, if_true,
        Shared.setSlot_eq_put, Shared.put_put, Shared.put_count, decr32_incr32, e,
        swapLog, List.nil_append, List.singleton_append]
    · obtain ⟨o1, o2, _, _⟩ := ok
      refine ⟨?_, ?_, by simp [hs], by simp [hs]⟩
      · intro t ht
        rcases List.mem_cons.mp ht with ht | ht
        · rw [ht]; rfl
        · exact o1 t ht
      · rw [hs]
        simpa [chainFrom] using o2
  · obtain ⟨p, s1, c1, log, e, ok⟩ := openForReadingAtT_shape hv h
    have hp : p = none := by
      have e2 := openForReadingAtT_erase m fileno
      rw [e, openForReadingAt_of_not_usable hv h hs] at e2
      cases hf : freeIfNeeded m fileno.toNat with
      | none => simp [hf] at e2
      | some m2 =>
        simp only [hf, Option.map_some', Option.some.injEq, Prod.mk.injEq] at e2
        exact e2.1
    subst hp
    exact ⟨false, s1, c1, log, by simp only [freeT, e], ok⟩

theorem openForWritingT_shape {m : Shared} {key : CacheKey} {idx : Int} {s : Slot}
    (fileno : Int) (hi : slotIdx m key = some idx) (hv : valid m idx = true)
    (h : m.slotAt idx.toNat = some s) :
    ∃ o s1 c1 log, openForWritingT m key fileno = some (o, log) ∧
      o.shared = m.put idx.toNat s1 c1 ∧ TraceOK s.state s1.state log := by
  obtain ⟨b, s1, c1, log, e, ok⟩ := freeT_shape hv h
  have h1 := Shared.slotAt_put_self s1 c1 h
  obtain ⟨o1, o2, o3, o4⟩ := ok
  by_cases hs : s1.state = SlotState.Empty
  · refine ⟨⟨some idx.toNat, idx,
        m.put idx.toNat { s1 with state := SlotState.Writing, key := key } c1⟩,
      { s1 with state := SlotState.Writing, key := key }, c1,
      log ++ [(SlotState.Empty, SlotState.Writing)], ?_, ?_, ?_⟩
    · simp only [openForWritingT, hi, e, h1, Slot.swap_if, hs, if_true, swapLog,
        Slot.setKey, Shared.setSlot_eq_put, Shared.put_put, Shared.put_count]
    · rfl
    · refine ⟨?_, ?_, by simp, by simp⟩
      · intro t ht
        rcases List.mem_append.mp ht with ht | ht
        · exact o1 t ht
        · rw [List.mem_singleton.mp ht]; rfl
      · rw [chainFrom_append _ _ o2, hs]
        rfl
  · refine ⟨⟨none, fileno, m.put idx.toNat s1 c1⟩, s1, c1, log, ?_, ?_, o1, o2, o3, o4⟩
    · simp [openForWritingT, hi, e, h1, Slot.swap_if, hs, swapLog]
    · rfl

theorem closeForWritingT_shape {m : Shared} {fileno : Int} {s : Slot}
    (hv : valid m fileno = true) (h : m.slotAt fileno.toNat = some s)
    (hs : s.state = SlotState.Writing) :
    ∃ s1 c1 log, closeForWritingT m fileno = some (m.put fileno.toNat s1 c1, log) ∧
      TraceOK s.state s1.state log := by
  refine ⟨{ s with state := SlotState.Usable, readLevel := s.readLevel + 1 }, m.count + 1,
    [(SlotState.Writing, SlotState.Usable)], ?_, ?_⟩
  · simp [closeForWritingT, hv, h, hs, Slot.swap_if, swapLog, Shared.setSlot, Shared.put]
  · rw [hs]
    refine ⟨by decide, rfl, ?_, ?_⟩
    · intro _ hc
      cases hc
    · intro hc
      cases hc

theorem openForReadingT_shape {m : Shared} {key : CacheKey} {idx : Int} {s : Slot}
    (fileno : Int) (hi : slotIdx m key = some idx) (hv : valid m idx = true)
    (h : m.slotAt idx.toNat = some s) :
    ∃ o s1 c1 log, openForReadingT m key fileno = some (o, log) ∧
      o.shared = m.put idx.toNat s1 c1 ∧ TraceOK s.state s1.state log := by
  obtain ⟨p, s1, c1, log, e, ok⟩ := openForReadingAtT_shape hv h
  have h1 := Shared.slotAt_put_self s1 c1 h
  cases p with
  | none =>
    exact ⟨⟨none, fileno, m.put idx.toNat s1 c1⟩, s1, c1, log,
      by simp only [openForReadingT, hi, e], rfl, ok⟩
  | some p =>
    exact ⟨⟨some p, idx, m.put idx.toNat s1 c1⟩, s1, c1, log,
      by simp [openForReadingT, hi, e, h1, Slot.checkKey], rfl, ok⟩

theorem closeForReadingT_shape {m : Shared} {fileno : Int} {s : Slot}
    (hv : valid m fileno = true) (h : m.slotAt fileno.toNat = some s)
    (hr : 0 < s.readLevel) :
    ∃ s1 c1 log, closeForReadingT m fileno = some (m.put fileno.toNat s1 c1, log) ∧
      TraceOK s.state s1.state log := by
  have h1 := Shared.slotAt_put_self
    ({ s with readLevel := s.readLevel - 1 } : Slot) m.count h
  obtain ⟨s1, c1, log, e, ok⟩ := freeIfNeededT_shape h1
  refine ⟨s1, c1, log, ?_, ok⟩
  simp only [closeForReadingT, hv, h, if_true, gt_iff_lt, hr, Shared.setSlot_eq_put, e,
    Shared.put_put]

theorem trace_put {m : Shared} (op : Op) {i : Nat} {s s1 : Slot} {c1 : Int}
    {log : List (SlotState × SlotState)} (hi : op.slot m = some i)
    (hs : m.slotAt i = some s) (ok : TraceOK s.state s1.state log) :
    (∀ t ∈ log, tabulated t = true) ∧
    ∃ i0 s0 s2, op.slot m = some i0 ∧ m.slotAt i0 = some s0 ∧
      (m.put i s1 c1).slotAt i0 = some s2 ∧
      chainFrom s0.state log = some s2.state ∧
      (s0.state = SlotState.Writing → s2.state ≠ SlotState.Empty) ∧
      (s0.state = SlotState.Empty → s2.state ≠ SlotState.Usable) ∧
      ∀ j, j ≠ i0 → (m.put i s1 c1).slotAt j = m.slotAt j :=
  ⟨ok.1, i, s, s1, hi, hs, Shared.slotAt_put_self _ _ hs, ok.2.1, ok.2.2.1, ok.2.2.2,
    fun _ hj => Shared.slotAt_put_ne _ _ hj⟩

/-- C16. Only the tabulated transitions occur.  A call with its record computes
the same region as the call itself; every state update it records is one of
`Empty → Writing`, `Writing → Usable`, `Usable → WaitingToBeFreed`,
`WaitingToBeFreed → Freeing`, `Freeing → WaitingToBeFreed`, `Freeing → Empty`;
the recorded updates form a chain from the slot's state before the call to its
state after it; no call takes a slot from `Writing` to `Empty` or from `Empty`
to `Usable`; and no other slot is touched. -/
theorem C16_only_tabulated_transitions (m : Shared) (op : Op) :
    (op.runT m).map (fun r => r.1) = op.run m ∧
    ∀ m1 log, op.runT m = some (m1, log) →
      (∀ t ∈ log, tabulated t = true) ∧
      ∃ i s s1, op.slot m = some i ∧ m.slotAt i = some s ∧ m1.slotAt i = some s1 ∧
        chainFrom s.state log = some s1.state ∧
        (s.state = SlotState.Writing → s1.state ≠ SlotState.Empty) ∧
        (s.state = SlotState.Empty → s1.state ≠ SlotState.Usable) ∧
        ∀ j, j ≠ i → m1.slotAt j = m.slotAt j := by
  refine ⟨runT_erase m op, ?_⟩
  intro m1 log h
  cases op with
  | openForWriting key fileno =>
    simp only [Op.runT, Option.map_eq_some'] at h
    obtain ⟨r, hr, e⟩ := h
    have he := openForWritingT_erase m key fileno
    rw [hr] at he
    obtain ⟨idx, hi, hv, s, hs⟩ := openForWriting_some he.symm
    obtain ⟨o, s1, c1, log1, e1, eo, ok⟩ := openForWritingT_shape fileno hi hv hs
    rw [e1] at hr
    injection hr with hr
    subst hr
    simp only [Prod.mk.injEq] at e
    obtain ⟨e2, e3⟩ := e
    subst e3
    rw [← e2, eo]
    exact trace_put (Op.openForWriting key fileno) (by simp [Op.slot, hi]) hs ok
  | store p b =>
    simp only [Op.runT, Op.run] at h
    cases hs : m.slotAt p with
    | none => simp [hs] at h
    | some s =>
      by_cases hw : s.state = SlotState.Writing
      · simp only [hs, hw, if_true, Option.map_some', Option.some.injEq,
          Prod.mk.injEq] at h
        obtain ⟨e2, e3⟩ := h
        subst e3
        have e4 : m1 = m.put p { s with seBasics := b } m.count := by
          rw [← e2]
          simp [storeBasics, hs, Shared.setSlot_eq_put]
        rw [e4]
        exact trace_put (Op.store p b) (by simp [Op.slot]) hs (TraceOK_refl _)
      · simp [hs, hw] at h
  | closeForWriting fileno =>
    simp only [Op.runT] at h
    have he := closeForWritingT_erase m fileno
    rw [h] at he
    obtain ⟨hv, s, hs, hw⟩ := closeForWriting_some he.symm
    obtain ⟨s1, c1, log1, e1, ok⟩ := closeForWritingT_shape hv hs hw
    rw [e1] at h
    simp only [Option.some.injEq, Prod.mk.injEq] at h
    obtain ⟨e2, e3⟩ := h
    subst e3
    rw [← e2]
    exact trace_put (Op.closeForWriting fileno) (by simp [Op.slot]) hs ok
  | openForReading key fileno =>
    simp only [Op.runT, Option.map_eq_some'] at h
    obtain ⟨r, hr, e⟩ := h
    have he := openForReadingT_erase m key fileno
    rw [hr] at he
    obtain ⟨idx, hi, hv, s, hs⟩ := openForReading_some he.symm
    obtain ⟨o, s1, c1, log1, e1, eo, ok⟩ := openForReadingT_shape fileno hi hv hs
    rw [e1] at hr
    injection hr with hr
    subst hr
    simp only [Prod.mk.injEq] at e
    obtain ⟨e2, e3⟩ := e
    subst e3
    rw [← e2, eo]
    exact trace_put (Op.openForReading key fileno) (by simp [Op.slot, hi]) hs ok
  | openForReadingAt fileno =>
    simp only [Op.runT, Option.map_eq_some'] at h
    obtain ⟨r, hr, e⟩ := h
    have he := openForReadingAtT_erase m fileno
    rw [hr] at he
    obtain ⟨hv, s, hs⟩ := openForReadingAt_some he.symm
    obtain ⟨p, s1, c1, log1, e1, ok⟩ := openForReadingAtT_shape hv hs
    rw [e1] at hr
    injection hr with hr
    subst hr
    simp only [Prod.mk.injEq] at e
    obtain ⟨e2, e3⟩ := e
    subst e3
    rw [← e2]
    exact trace_put (Op.openForReadingAt fileno) (by simp [Op.slot]) hs ok
  | closeForReading fileno =>
    simp only [Op.runT] at h
    have he := closeForReadingT_erase m fileno
    rw [h] at he
    obtain ⟨hv, s, hs, hr⟩ := closeForReading_some he.symm
    obtain ⟨s1, c1, log1, e1, ok⟩ := closeForReadingT_shape hv hs hr
    rw [e1] at h
    simp only [Option.some.injEq, Prod.mk.injEq] at h
    obtain ⟨e2, e3⟩ := h
    subst e3
    rw [← e2]
    exact trace_put (Op.closeForReading fileno) (by simp [Op.slot]) hs ok
  | free fileno =>
    simp only [Op.runT, Option.map_eq_some'] at h
    obtain ⟨r, hr, e⟩ := h
    have he := freeT_erase m fileno
    rw [hr] at he
    obtain ⟨hv, s, hs⟩ := free_some he.symm
    obtain ⟨b, s1, c1, log1, e1, ok⟩ := freeT_shape hv hs
    rw [e1] at hr
    injection hr with hr
    subst hr
    simp only [Prod.mk.injEq] at e
    obtain ⟨e2, e3⟩ := e
    subst e3
    rw [← e2]
    exact trace_put (Op.free fileno) (by simp [Op.slot]) hs ok
  | freeIfNeeded i =>
    simp only [Op.runT] at h
    cases hs : m.slotAt i with
    | none => simp [freeIfNeededT, hs] at h
    | some s =>
      obtain ⟨s1, c1, log1, e1, ok⟩ := freeIfNeededT_shape hs
      rw [e1] at h
      simp only [Option.some.injEq, Prod.mk.injEq] at h
      obtain ⟨e2, e3⟩ := h
      subst e3
      rw [← e2]
      exact trace_put (Op.freeIfNeeded i) (by simp [Op.slot]) hs ok

/-! ## The later claims at concrete inputs -/

/-- C11 at a concrete input: keys for slots 1 and 2 of a fresh map of four
slots. -/
theorem C11_witness :
    slotIdx (Shared.create 4) exKeyA = some 1 ∧
    slotIdx (Shared.create 4) ⟨2, 0⟩ = some 2 ∧
    ∃ a b ab ba,
      openForWriting (Shared.create 4) exKeyA 0 = some ⟨some 1, 1, a⟩ ∧
      openForWriting a ⟨2, 0⟩ 0 = some ⟨some 2, 2, ab⟩ ∧
      openForWriting (Shared.create 4) ⟨2, 0⟩ 0 = some ⟨some 2, 2, b⟩ ∧
      openForWriting b exKeyA 0 = some ⟨some 1, 1, ba⟩ ∧
      ab = ba := by
  refine ⟨by decide, by decide, ?_⟩
  obtain ⟨a, b, ab, ba, h1, h2, h3, h4, h5, _⟩ :=
    C11_writers_commute (Shared.create 4) exKeyA ⟨2, 0⟩ 1 2 0 zeroSlot zeroSlot
      (by decide) (by decide) (by decide) (by decide) (by decide) (by decide) (by decide)
      (by decide)
  exact ⟨a, b, ab, ba, h1, h2, h3, h4, h5⟩

/-- C12 at a concrete input: the path `var/cache/rock`. -/
theorem C12_witness :
    ∃ r, sharedMemoryName exPath = some r ∧ '/' ∉ r ∧
      r = exPath.map (fun c => if c = '/' then '.' else c) := by
  obtain ⟨r, e, hn, hd⟩ := C12_sharedMemoryName exPath
  exact ⟨r, e, hn, hd (by decide) (by simp [exPath])⟩

/-- C13 at a concrete input: slot 1 of `exWaiting`. -/
theorem C13_witness :
    exWaiting.slotAt 1 = some ⟨SlotState.WaitingToBeFreed, 0, exKeyA, exBasics⟩ ∧
    ∃ m1, freeIfNeeded exWaiting 1 = some m1 ∧
      m1.slotAt 1 = some ⟨SlotState.Empty, 0, zeroKey, zeroBasics⟩ ∧
      m1.count = exWaiting.count - 1 ∧ m1.limit = exWaiting.limit ∧
      ∀ j, j ≠ 1 → m1.slotAt j = exWaiting.slotAt j :=
  ⟨by decide,
    C13_freeIfNeeded_reclaims exWaiting 1 ⟨SlotState.WaitingToBeFreed, 0, exKeyA, exBasics⟩
      (by decide) (by decide) (by decide)⟩

/-- C16 at a concrete input: `free(1)` on `exUsable` records
`Usable → WaitingToBeFreed`, `WaitingToBeFreed → Freeing` and
`Freeing → WaitingToBeFreed`. -/
theorem C16_witness :
    (Op.free 1).runT exUsable =
      some (exUsable.put 1 ⟨SlotState.WaitingToBeFreed, 1, exKeyA, exBasics⟩ 1,
        [(SlotState.Usable, SlotState.WaitingToBeFreed),
         (SlotState.WaitingToBeFreed, SlotState.Freeing),
         (SlotState.Freeing, SlotState.WaitingToBeFreed)]) ∧
    ∀ t ∈ [(SlotState.Usable, SlotState.WaitingToBeFreed),
           (SlotState.WaitingToBeFreed, SlotState.Freeing),
           (SlotState.Freeing, SlotState.WaitingToBeFreed)], tabulated t = true :=
  ⟨by decide,
    ((C16_only_tabulated_transitions exUsable (Op.free 1)).2
      (exUsable.put 1 ⟨SlotState.WaitingToBeFreed, 1, exKeyA, exBasics⟩ 1)
      [(SlotState.Usable, SlotState.WaitingToBeFreed),
       (SlotState.WaitingToBeFreed, SlotState.Freeing),
       (SlotState.Freeing, SlotState.WaitingToBeFreed)] (by decide)).1⟩

end DirMap
end Rock
